import Mathlib

/-!
# Room event handling of typing-battles (`src/src/common.h`)

A shallow embedding of `RoomBase::handle` and of the data it works on.

Modelling conventions, used throughout:

* `float` values (scores, times, coordinates) are rationals `ℚ`, and the arithmetic on
  scores and stored times is exact; the sum `tRoundStart_s + tRoundLength_s` of the time
  guard of `PlayerInput`, where the rounding of `float` addition decides which branch
  is taken, is rounded to the nearest `float` by `roundF32`;
* `int32_t` values are `Int`; they are only compared, but for `++roundId`, which wraps
  (`wrapInt32`), and the signed-to-unsigned conversion in `pool.size() < poolSize`,
  which is explicit in `sizeOfInt32`; the cast `(uint64_t)` of the sleep of a round is
  `castUInt64`;
* a `std::string` is the list of its chars, `size()` is the length of the list;
* the virtual `generate()` is a state-passing function `generate : σ → Query × σ`
  over a generator state `σ` of its own;
* `timestamp_s()` is an oracle `clock : Nat → ℚ`: `clock k` is what the `k`-th call
  made during one run of `handle` returns (`k = 0, 1`);
* `notifier.notify(f)` is recorded as the task handed to the notifier: how long the
  closure sleeps and the event it pushes afterwards;
* `printf` has no effect on the state.
-/

namespace TypingBattles

/-- A `std::string`, as the sequence of its chars. -/
abbrev StdString := List Char

/-- The struct `PlayerInfo`. -/
structure PlayerInfo where
  clientId : Int := 0
  score : ℚ := 0
  active : Bool := false
deriving DecidableEq

/-- The struct `Query`: one guessable item. -/
structure Query where
  x : ℚ := 0
  y : ℚ := 0
  clientId : Int := 0
  tGuessed_s : ℚ := 0
  text : StdString := []
  answer : StdString := []
deriving DecidableEq

/-- The enum `Event::Type`. -/
inductive EventType where
  | Unknown
  | StartNewRound
  | EndRound
  | PlayerJoinRoom
  | PlayerInput
  | ClientChangeName
  | ClientChangeColor
deriving DecidableEq

/-- The struct `Event`. -/
structure Event where
  type : EventType := EventType.Unknown
  roomId : Int := -100
  clientId : Int := -1
  inputStr : StdString := []
deriving DecidableEq

/-- The closure given to `Notifier::notify`: it sleeps `sleep_ms` milliseconds and then
pushes `event` on the event queue. -/
structure NotifyTask where
  sleep_ms : Nat
  event : Event
deriving DecidableEq

/-- The data members of the struct `RoomBase` (the notifier apart). -/
structure RoomBase where
  id : Int := 0
  name : StdString := "__unknown__".toList
  roundId : Int := 0
  poolSize : Int := 0
  tCreated_s : ℚ := 0
  tRoundStart_s : ℚ := 0
  tRoundLength_s : ℚ := 0
  tNextRoundStart_s : ℚ := 0
  tTimeBetweenRounds_ms : Nat := 20000
  pool : List Query := []
  poolOld : List Query := []
  players : List PlayerInfo := []
deriving DecidableEq

/-- What one run of `handle` leaves behind: the room, the state of the generator and the
task handed to the notifier, if any. -/
structure Outcome (σ : Type) where
  room : RoomBase
  gen : σ
  task : Option NotifyTask

/-- Rounding to the nearest integer, a tie going to the even one. -/
def roundHalfEven (m : ℚ) : Int :=
  if m - (Rat.floor m : ℚ) < 1 / 2 then Rat.floor m
  else if 1 / 2 < m - (Rat.floor m : ℚ) then Rat.floor m + 1
  else if Rat.floor m % 2 = 0 then Rat.floor m else Rat.floor m + 1

/-- The exponent a positive value has as a `float`: that of the power of two at or below
it, and `-126` for the subnormal values below `2 ^ (-126)`. -/
def floatExponent (x : ℚ) : Int := max (Int.log 2 x) (-126)

/-- The `float` nearest to a positive value: the value is rounded to a multiple of the
unit in the last place of its exponent, 24 significant bits. -/
def roundPositive (x : ℚ) : ℚ :=
  (roundHalfEven (x / 2 ^ (floatExponent x - 23)) : ℚ) * 2 ^ (floatExponent x - 23)

/-- The rounding of an exact value to `float` (IEEE 754 binary32, round to nearest, ties
to even), as the `float` addition of line 226 does to its result. The exponent is not
bounded above: where the code gets an infinity, this is a value beyond every `float`,
which compares with a finite `float` as the infinity does. -/
def roundF32 (x : ℚ) : ℚ :=
  if 0 < x then roundPositive x else if x < 0 then -roundPositive (-x) else 0

/-- The value of an `int32_t` after an arithmetic step with exact result `n`: the
representative of `n` modulo `2 ^ 32` in the range of `int32_t`. -/
def wrapInt32 (n : Int) : Int := (n + 2 ^ 31) % 2 ^ 32 - 2 ^ 31

/-- The cast `(uint64_t)` of a `double`: the fraction is dropped. Where the integer part
is outside the range of `uint64_t`, its residue modulo `2 ^ 64` is taken. -/
def castUInt64 (x : ℚ) : Nat :=
  ((if 0 ≤ x then Rat.floor x else -Rat.floor (-x)) % 2 ^ 64).toNat

/-- The conversion of the `int32_t` `poolSize` to the 64-bit `size_t` it is compared with
in `pool.size() < poolSize`: a negative value wraps modulo `2 ^ 64`. -/
def sizeOfInt32 (n : Int) : Nat :=
  if 0 ≤ n then n.toNat else (n % 2 ^ 64).toNat

/-- The loop `while (pool.size() < poolSize) pool.emplace_back(generate());`, with
`target` the converted `poolSize`. The first argument bounds the number of iterations. -/
def refill {σ : Type} (generate : σ → Query × σ) (target : Nat) :
    Nat → List Query → σ → List Query × σ
  | 0, pool, g => (pool, g)
  | fuel + 1, pool, g =>
    if pool.length < target then
      refill generate target fuel (pool ++ [(generate g).1]) (generate g).2
    else (pool, g)

/-- The algorithm `std::remove_if` followed by `erase`: the elements satisfying `pred`
are dropped, the others keep their order. -/
def removeIf (pred : PlayerInfo → Bool) (players : List PlayerInfo) : List PlayerInfo :=
  players.filter (fun p => !pred p)

/-- The loop `for (auto & player : players) player.score = 0.0f;`. -/
def resetScores : List PlayerInfo → List PlayerInfo
  | [] => []
  | p :: ps => { p with score := 0 } :: resetScores ps

/-- The first loop of `PlayerJoinRoom`: the first player with the client id is made
active and the loop returns; `none` when the loop ends without finding one. -/
def activate (clientId : Int) : List PlayerInfo → Option (List PlayerInfo)
  | [] => none
  | p :: ps =>
    if p.clientId = clientId then some ({ p with active := true } :: ps)
    else (activate clientId ps).map (fun qs => p :: qs)

/-- The `PlayerJoinRoom` branch for `event.roomId == id`. -/
def joinRoom (clientId : Int) (players : List PlayerInfo) : List PlayerInfo :=
  match activate clientId players with
  | some ps => ps
  | none => players ++ [{ clientId := clientId, active := true }]

/-- The `PlayerJoinRoom` branch for `event.roomId != id`: every player with the client
id is made inactive. -/
def leaveRoom (clientId : Int) : List PlayerInfo → List PlayerInfo
  | [] => []
  | p :: ps =>
    (if p.clientId = clientId then { p with active := false } else p) :: leaveRoom clientId ps

/-- The lookup loop of `PlayerInput`: the index of the first player with the client id,
`none` standing for `playerId == -1`. -/
def findPlayer (clientId : Int) : List PlayerInfo → Option Nat
  | [] => none
  | p :: ps =>
    if p.clientId = clientId then some 0 else (findPlayer clientId ps).map (fun i => i + 1)

/-- An assignment through the reference `players[playerId]`. -/
def updatePlayer (f : PlayerInfo → PlayerInfo) : Nat → List PlayerInfo → List PlayerInfo
  | _, [] => []
  | 0, p :: ps => f p :: ps
  | i + 1, p :: ps => p :: updatePlayer f i ps

/-- What the match loop of `PlayerInput` does when it finds the answer. -/
structure Hit (σ : Type) where
  pool : List Query
  retired : Query
  gain : ℚ
  gen : σ

/-- The loop `for (auto & query : pool)` of `PlayerInput`: at the first query whose
answer is the input, the gain `3.0f + 0.2f*query.answer.size()` is computed, the query
is stamped with the client and the time and moved to `poolOld`, its slot receives
`generate()`, and the loop breaks. `none` when no answer is the input. -/
def scanPool {σ : Type} (generate : σ → Query × σ) (clientId : Int) (inputStr : StdString)
    (tGuessed : ℚ) : List Query → σ → Option (Hit σ)
  | [], _ => none
  | query :: rest, g =>
    if inputStr = query.answer then
      some
        { pool := (generate g).1 :: rest
          retired := { query with clientId := clientId, tGuessed_s := tGuessed }
          gain := 3 + (1 / 5) * (query.answer.length : ℚ)
          gen := (generate g).2 }
    else
      (scanPool generate clientId inputStr tGuessed rest g).map
        (fun h => { h with pool := query :: h.pool })

/-- The statements `player.score -= 1.0f; if (player.score < 0.0) player.score = 0.0f;`. -/
def penalise (p : PlayerInfo) : PlayerInfo :=
  if p.score - 1 < 0 then { p with score := 0 } else { p with score := p.score - 1 }

/-- The body of the `PlayerInput` branch after its two guards. -/
def playerInput {σ : Type} (generate : σ → Query × σ) (r : RoomBase) (g : σ)
    (clock : Nat → ℚ) (event : Event) : Outcome σ :=
  match findPlayer event.clientId r.players with
  | none => { room := r, gen := g, task := none }
  | some playerId =>
    match scanPool generate event.clientId event.inputStr (clock 1) r.pool g with
    | some hit =>
      { room :=
          { r with
            players := updatePlayer (fun p => { p with score := p.score + hit.gain })
              playerId r.players
            pool := hit.pool
            poolOld := r.poolOld ++ [hit.retired] }
        gen := hit.gen
        task := none }
    | none =>
      { room := { r with players := updatePlayer penalise playerId r.players }
        gen := g
        task := none }

/-- The method `RoomBase::handle`, branch by branch of its `switch`. `++roundId` is the
successor in `int32_t`; the sleep of the task of `StartNewRound` is
`(uint64_t)(1000.0*tRoundLength_s)`, a product that is exact in `double` for a `float`
round length; the events the tasks push are default-constructed but for `roomId` and
`type`; the refill loop starts from the cleared pool, so `sizeOfInt32 poolSize`
iterations are all it can make. The time guard of `PlayerInput` compares two `float`s:
the reading of the clock, which the rounding leaves as it is, and the rounded sum
`tRoundStart_s + tRoundLength_s`. -/
def handle {σ : Type} (generate : σ → Query × σ) (r : RoomBase) (g : σ)
    (clock : Nat → ℚ) (event : Event) : Outcome σ :=
  match event.type with
  | EventType.StartNewRound =>
    if event.roomId ≠ r.id then { room := r, gen := g, task := none }
    else
      let filled := refill generate (sizeOfInt32 r.poolSize) (sizeOfInt32 r.poolSize) [] g
      { room :=
          { r with
            roundId := wrapInt32 (r.roundId + 1)
            pool := filled.1
            poolOld := []
            players := resetScores (removeIf (fun p => p.active == false) r.players)
            tRoundStart_s := clock 0 }
        gen := filled.2
        task := some
          { sleep_ms := castUInt64 (1000 * r.tRoundLength_s)
            event := { type := EventType.EndRound, roomId := r.id } } }
  | EventType.EndRound =>
    if event.roomId ≠ r.id then { room := r, gen := g, task := none }
    else
      { room :=
          { r with
            tNextRoundStart_s := clock 0 + (1 / 1000) * (r.tTimeBetweenRounds_ms : ℚ) }
        gen := g
        task := some
          { sleep_ms := r.tTimeBetweenRounds_ms
            event := { type := EventType.StartNewRound, roomId := r.id } } }
  | EventType.PlayerJoinRoom =>
    if event.roomId = r.id then
      { room := { r with players := joinRoom event.clientId r.players }, gen := g, task := none }
    else
      { room := { r with players := leaveRoom event.clientId r.players }, gen := g, task := none }
  | EventType.PlayerInput =>
    if event.roomId ≠ r.id then { room := r, gen := g, task := none }
    else if roundF32 (clock 0) > roundF32 (r.tRoundStart_s + r.tRoundLength_s) then
      { room := r, gen := g, task := none }
    else playerInput generate r g clock event
  | _ => { room := r, gen := g, task := none }

/-- The rooms reached from `r0` by handling any sequence of events, at any times and with
the generator in any state. -/
inductive Reachable {σ : Type} (generate : σ → Query × σ) (r0 : RoomBase) : RoomBase → Prop
  | start : Reachable generate r0 r0
  | step (r : RoomBase) (g : σ) (clock : Nat → ℚ) (event : Event) :
      Reachable generate r0 r → Reachable generate r0 (handle generate r g clock event).room

/-- The client ids of the players are pairwise distinct. -/
def UniqueIds (players : List PlayerInfo) : Prop :=
  (players.map (fun p => p.clientId)).Nodup

/-- No player has a negative score. -/
def ScoresNonneg (players : List PlayerInfo) : Prop :=
  ∀ p ∈ players, 0 ≤ p.score

/-- The score of the player that the lookup of `PlayerInput` finds for a client id. -/
def scoreOf (clientId : Int) (players : List PlayerInfo) : Option ℚ :=
  (players.find? (fun p => p.clientId == clientId)).map (fun p => p.score)

/-- A generator for the examples: it hands out the answers "cat" and "horse" in turn. -/
def demoGenerate (n : Nat) : Query × Nat :=
  ({ text := "word".toList, answer := if n % 2 = 0 then "cat".toList else "horse".toList },
    n + 1)

/-- The item with the answer "cat". -/
def catQuery : Query := { text := "word".toList, answer := "cat".toList }

/-- The item with the answer "horse". -/
def horseQuery : Query := { text := "word".toList, answer := "horse".toList }

/-- A room in the middle of a round: round started at 10 s and 5 s long, two items in
the pool, client 7 has joined and has score 0. -/
def catRoom : RoomBase :=
  { id := 1, roundId := 1, poolSize := 2, tRoundStart_s := 10, tRoundLength_s := 5
    pool := [catQuery, horseQuery]
    players := [{ clientId := 7, score := 0, active := true }] }

/-- The room `catRoom` with the score of client 7 set to `s`. -/
def scoredRoom (s : ℚ) : RoomBase :=
  { catRoom with players := [{ clientId := 7, score := s, active := true }] }

/-- A room between rounds: `poolSize = 2`, rounds of 5 s, and three players, of which
client 8 has left for another room. -/
def joinedRoom : RoomBase :=
  { id := 1, poolSize := 2, tRoundLength_s := 5
    players := [{ clientId := 7, score := 18 / 5, active := true },
                { clientId := 8, score := 2, active := false },
                { clientId := 9, score := 1, active := true }] }

/-- The event `StartNewRound` for room 1. -/
def startRound : Event := { type := EventType.StartNewRound, roomId := 1 }

/-- A room as it is created: no player, no item, `poolSize = 2`, rounds of 5 s. -/
def emptyRoom : RoomBase := { id := 1, poolSize := 2, tRoundLength_s := 5 }

/-- The event `PlayerJoinRoom` of client 7 for room 1. -/
def joinSeven : Event := { type := EventType.PlayerJoinRoom, roomId := 1, clientId := 7 }

/-- The event `PlayerJoinRoom` of client 7 for room 2. -/
def leaveSeven : Event := { type := EventType.PlayerJoinRoom, roomId := 2, clientId := 7 }

/-- The submission "cat" of client 7 to room 1. -/
def catInput : Event :=
  { type := EventType.PlayerInput, roomId := 1, clientId := 7, inputStr := "cat".toList }

/-- The submission "dog" of client 7 to room 1, which no item of `catRoom` answers. -/
def dogInput : Event :=
  { type := EventType.PlayerInput, roomId := 1, clientId := 7, inputStr := "dog".toList }

/-- The room `catRoom` after client 7 has joined another room: its entry is inactive. -/
def inactiveRoom : RoomBase :=
  { catRoom with players := [{ clientId := 7, score := 0, active := false }] }

/-- The submission "cat" to room 1 of client 99, which is not among the players. -/
def strangerInput : Event :=
  { type := EventType.PlayerInput, roomId := 1, clientId := 99, inputStr := "cat".toList }

/-- A second item with the answer "cat". -/
def catAgain : Query := { x := 1, y := 2, text := "again".toList, answer := "cat".toList }

/-- The room `catRoom` with three items in the pool, of which the second and the third
have the answer "cat". -/
def twinRoom : RoomBase :=
  { catRoom with poolSize := 3, pool := [horseQuery, catQuery, catAgain] }

/-- A `ClientChangeName` event of client 7 for room 1. -/
def renameSeven : Event :=
  { type := EventType.ClientChangeName, roomId := 1, clientId := 7, inputStr := "neo".toList }

/-- The room `joinedRoom` in a round started at 10 s, with "cat" and "horse" in the
pool. -/
def roundRoom : RoomBase :=
  { joinedRoom with roundId := 1, tRoundStart_s := 10, pool := [catQuery, horseQuery] }

/-- The room `catRoom` with its round started at the `float` nearest to 1.005 s. -/
def edgeRoom : RoomBase := { catRoom with tRoundStart_s := 8430551 / 8388608 }

/-- The `float` nearest to 6.005 s. -/
def edgeTime : ℚ := 6296699 / 1048576

/-! ## Lemmas on the rounding to `float` -/

theorem floor_eq_intFloor (m : ℚ) : Rat.floor m = ⌊m⌋ := rfl

theorem roundHalfEven_ge_floor (m : ℚ) : Rat.floor m ≤ roundHalfEven m := by
  unfold roundHalfEven
  split
  · exact le_refl _
  · split
    · omega
    · split <;> omega

theorem roundHalfEven_le_floor_succ (m : ℚ) : roundHalfEven m ≤ Rat.floor m + 1 := by
  unfold roundHalfEven
  split
  · omega
  · split
    · omega
    · split <;> omega

theorem roundHalfEven_intCast (n : Int) : roundHalfEven (n : ℚ) = n := by
  have hf : Rat.floor (n : ℚ) = n := by rw [floor_eq_intFloor, Int.floor_intCast]
  unfold roundHalfEven
  rw [hf]
  norm_num

theorem roundHalfEven_mono (a b : ℚ) (h : a ≤ b) : roundHalfEven a ≤ roundHalfEven b := by
  have hfl : Rat.floor a ≤ Rat.floor b := by
    rw [floor_eq_intFloor, floor_eq_intFloor]
    exact Int.floor_mono h
  rcases lt_or_eq_of_le hfl with hlt | heq
  · calc roundHalfEven a ≤ Rat.floor a + 1 := roundHalfEven_le_floor_succ a
      _ ≤ Rat.floor b := hlt
      _ ≤ roundHalfEven b := roundHalfEven_ge_floor b
  · have hfrac : a - (Rat.floor a : ℚ) ≤ b - (Rat.floor b : ℚ) := by
      rw [heq]
      linarith
    unfold roundHalfEven
    rw [heq] at hfrac ⊢
    split_ifs <;> first | omega | (exfalso; linarith)

theorem roundHalfEven_le_of_le (m : ℚ) (n : Int) (h : m ≤ (n : ℚ)) : roundHalfEven m ≤ n := by
  have := roundHalfEven_mono m n h
  rwa [roundHalfEven_intCast] at this

theorem le_roundHalfEven_of_le (m : ℚ) (n : Int) (h : (n : ℚ) ≤ m) : n ≤ roundHalfEven m := by
  have := roundHalfEven_mono n m h
  rwa [roundHalfEven_intCast] at this

theorem floatExponent_mono (x y : ℚ) (hx : 0 < x) (h : x ≤ y) :
    floatExponent x ≤ floatExponent y :=
  max_le_max (Int.log_mono_right hx h) (le_refl _)

theorem lt_zpow_floatExponent (x : ℚ) : x < 2 ^ (floatExponent x + 1) := by
  have h1 : x < (2 : ℚ) ^ (Int.log 2 x + 1) := by
    have := Int.lt_zpow_succ_log_self (b := 2) (by norm_num) x
    exact_mod_cast this
  refine lt_of_lt_of_le h1 ?_
  apply zpow_le_zpow_right₀ (by norm_num)
  unfold floatExponent
  have := le_max_left (Int.log 2 x) (-126)
  omega

theorem zpow_floatExponent_le (x : ℚ) (hx : 0 < x) (hnormal : floatExponent x ≠ -126) :
    2 ^ floatExponent x ≤ x := by
  have hlog : floatExponent x = Int.log 2 x := by
    unfold floatExponent at hnormal ⊢
    rcases max_cases (Int.log 2 x) (-126) with ⟨h, _⟩ | ⟨h, _⟩
    · exact h
    · exact absurd h hnormal
  rw [hlog]
  have := Int.zpow_log_le_self (b := 2) (by norm_num) hx
  exact_mod_cast this

theorem ulp_pos (e : Int) : (0 : ℚ) < 2 ^ e := zpow_pos (by norm_num) e

theorem roundPositive_nonneg (x : ℚ) (hx : 0 < x) : 0 ≤ roundPositive x := by
  unfold roundPositive
  have h0 : (0 : Int) ≤ roundHalfEven (x / 2 ^ (floatExponent x - 23)) :=
    le_roundHalfEven_of_le _ 0 (by
      simpa using le_of_lt (div_pos hx (ulp_pos _)))
  exact mul_nonneg (by exact_mod_cast h0) (le_of_lt (ulp_pos _))

theorem roundPositive_le (x : ℚ) : roundPositive x ≤ 2 ^ (floatExponent x + 1) := by
  unfold roundPositive
  have hsplit : (2 : ℚ) ^ (floatExponent x + 1) = ((2 ^ 24 : Int) : ℚ) * 2 ^ (floatExponent x - 23) := by
    have : floatExponent x + 1 = 24 + (floatExponent x - 23) := by ring
    rw [this, zpow_add₀ (by norm_num)]
    norm_num
  rw [hsplit]
  apply mul_le_mul_of_nonneg_right _ (le_of_lt (ulp_pos _))
  have hle : roundHalfEven (x / 2 ^ (floatExponent x - 23)) ≤ (2 ^ 24 : Int) := by
    apply roundHalfEven_le_of_le
    rw [div_le_iff₀ (ulp_pos _), ← hsplit]
    exact le_of_lt (lt_zpow_floatExponent x)
  exact_mod_cast hle

theorem le_roundPositive (x : ℚ) (hx : 0 < x) (hnormal : floatExponent x ≠ -126) :
    2 ^ floatExponent x ≤ roundPositive x := by
  unfold roundPositive
  have hsplit : (2 : ℚ) ^ floatExponent x = ((2 ^ 23 : Int) : ℚ) * 2 ^ (floatExponent x - 23) := by
    have : floatExponent x = 23 + (floatExponent x - 23) := by ring
    conv_lhs => rw [this, zpow_add₀ (by norm_num : (2 : ℚ) ≠ 0)]
    norm_num
  rw [hsplit]
  apply mul_le_mul_of_nonneg_right _ (le_of_lt (ulp_pos _))
  have hle : (2 ^ 23 : Int) ≤ roundHalfEven (x / 2 ^ (floatExponent x - 23)) := by
    apply le_roundHalfEven_of_le
    rw [le_div_iff₀ (ulp_pos _), ← hsplit]
    exact zpow_floatExponent_le x hx hnormal
  exact_mod_cast hle

theorem roundPositive_mono (x y : ℚ) (hx : 0 < x) (h : x ≤ y) :
    roundPositive x ≤ roundPositive y := by
  have hy : 0 < y := lt_of_lt_of_le hx h
  rcases lt_or_eq_of_le (floatExponent_mono x y hx h) with hlt | heq
  · have hnormal : floatExponent y ≠ -126 := by
      have : -126 ≤ floatExponent x := le_max_right _ _
      omega
    calc roundPositive x ≤ 2 ^ (floatExponent x + 1) := roundPositive_le x
      _ ≤ 2 ^ floatExponent y := zpow_le_zpow_right₀ (by norm_num) hlt
      _ ≤ roundPositive y := le_roundPositive y hy hnormal
  · unfold roundPositive
    rw [heq]
    apply mul_le_mul_of_nonneg_right _ (le_of_lt (ulp_pos _))
    have := roundHalfEven_mono (x / 2 ^ (floatExponent y - 23)) (y / 2 ^ (floatExponent y - 23))
      (div_le_div_of_nonneg_right h (le_of_lt (ulp_pos _)))
    exact_mod_cast this

theorem roundF32_mono (x y : ℚ) (h : x ≤ y) : roundF32 x ≤ roundF32 y := by
  unfold roundF32
  by_cases hx : 0 < x
  · have hy : 0 < y := lt_of_lt_of_le hx h
    rw [if_pos hx, if_pos hy]
    exact roundPositive_mono x y hx h
  · rw [if_neg hx]
    by_cases hy : 0 < y
    · rw [if_pos hy]
      have hny := roundPositive_nonneg y hy
      split
      · rename_i hxn
        have := roundPositive_nonneg (-x) (by linarith)
        linarith
      · exact hny
    · rw [if_neg hy]
      by_cases hxn : x < 0
      · rw [if_pos hxn]
        by_cases hyn : y < 0
        · rw [if_pos hyn]
          have := roundPositive_mono (-y) (-x) (by linarith) (by linarith)
          linarith
        · rw [if_neg hyn]
          have := roundPositive_nonneg (-x) (by linarith)
          linarith
      · have hx0 : x = 0 := le_antisymm (not_lt.1 hx) (not_lt.1 hxn)
        have hy0 : y = 0 := le_antisymm (not_lt.1 hy) (hx0 ▸ h)
        rw [if_neg hxn, if_neg (by rw [hy0]; exact lt_irrefl _)]

theorem roundHalfEven_of_near (m : ℚ) (n : Int) (hlo : (n : ℚ) - 1 / 2 < m)
    (hhi : m < (n : ℚ) + 1 / 2) : roundHalfEven m = n := by
  by_cases hge : (n : ℚ) ≤ m
  · have hf : Rat.floor m = n := by
      rw [floor_eq_intFloor, Int.floor_eq_iff]
      exact ⟨hge, by linarith⟩
    unfold roundHalfEven
    rw [hf, if_pos (by linarith)]
  · have hf : Rat.floor m = n - 1 := by
      rw [floor_eq_intFloor, Int.floor_eq_iff]
      push_cast
      exact ⟨by linarith, by linarith⟩
    unfold roundHalfEven
    rw [hf]
    push_cast
    rw [if_neg (by linarith), if_pos (by linarith)]
    ring

theorem floatExponent_eq (x : ℚ) (e : Int) (he : -126 ≤ e) (hlo : 2 ^ e ≤ x)
    (hhi : x < 2 ^ (e + 1)) : floatExponent x = e := by
  have hx : 0 < x := lt_of_lt_of_le (ulp_pos e) hlo
  have h1 : e ≤ Int.log 2 x := (Int.zpow_le_iff_le_log (b := 2) (by norm_num) hx).1 (by exact_mod_cast hlo)
  have h2 : Int.log 2 x < e + 1 := (Int.lt_zpow_iff_log_lt (b := 2) (by norm_num) hx).1 (by exact_mod_cast hhi)
  unfold floatExponent
  rw [max_eq_left (by omega)]
  omega

theorem roundF32_eq (x : ℚ) (e n : Int) (he : -126 ≤ e) (hlo : 2 ^ e ≤ x)
    (hhi : x < 2 ^ (e + 1)) (hn1 : (n : ℚ) - 1 / 2 < x / 2 ^ (e - 23))
    (hn2 : x / 2 ^ (e - 23) < (n : ℚ) + 1 / 2) : roundF32 x = (n : ℚ) * 2 ^ (e - 23) := by
  have hx : 0 < x := lt_of_lt_of_le (ulp_pos e) hlo
  unfold roundF32 roundPositive
  rw [if_pos hx, floatExponent_eq x e he hlo hhi, roundHalfEven_of_near _ n hn1 hn2]

theorem floatExponent_le_of_lt (y : ℚ) (hy : 0 < y) (e : Int) (he : -126 ≤ e)
    (h : y < 2 ^ (e + 1)) : floatExponent y ≤ e := by
  have h2 : Int.log 2 y < e + 1 :=
    (Int.lt_zpow_iff_log_lt (b := 2) (by norm_num) hy).1 (by exact_mod_cast h)
  unfold floatExponent
  exact max_le (by omega) he

theorem roundPositive_of_scaled (n : Nat) (k : Int) (hn0 : 0 < n) (hn : n < 2 ^ 24)
    (hk : -149 ≤ k) : roundPositive ((n : ℚ) * 2 ^ k) = (n : ℚ) * 2 ^ k := by
  have hy : (0 : ℚ) < (n : ℚ) * 2 ^ k := mul_pos (by exact_mod_cast hn0) (ulp_pos k)
  have hlt : (n : ℚ) * 2 ^ k < 2 ^ (k + 23 + 1) := by
    have : k + 23 + 1 = 24 + k := by ring
    rw [this, zpow_add₀ (by norm_num : (2 : ℚ) ≠ 0)]
    apply mul_lt_mul_of_pos_right _ (ulp_pos k)
    have hq : (n : ℚ) < ((2 ^ 24 : Nat) : ℚ) := by exact_mod_cast hn
    have h24 : ((2 ^ 24 : Nat) : ℚ) = 2 ^ (24 : Int) := by norm_num
    rwa [h24] at hq
  have hE := floatExponent_le_of_lt _ hy (k + 23) (by omega) hlt
  obtain ⟨d, hd⟩ : ∃ d : Nat, k = (floatExponent ((n : ℚ) * 2 ^ k) - 23) + (d : Int) :=
    ⟨(k - (floatExponent ((n : ℚ) * 2 ^ k) - 23)).toNat, by
      rw [Int.toNat_of_nonneg (by omega)]
      ring⟩
  unfold roundPositive
  have hdiv : (n : ℚ) * 2 ^ k / 2 ^ (floatExponent ((n : ℚ) * 2 ^ k) - 23)
      = (((n * 2 ^ d : Nat) : Int) : ℚ) := by
    rw [div_eq_iff (ne_of_gt (ulp_pos _))]
    conv_lhs => rw [hd]
    rw [zpow_add₀ (by norm_num : (2 : ℚ) ≠ 0)]
    push_cast
    rw [zpow_natCast]
    ring
  rw [hdiv, roundHalfEven_intCast, ← hdiv]
  exact div_mul_cancel₀ _ (ne_of_gt (ulp_pos _))

theorem roundF32_of_scaled (n : Nat) (k : Int) (hn : n < 2 ^ 24) (hk : -149 ≤ k) :
    roundF32 ((n : ℚ) * 2 ^ k) = (n : ℚ) * 2 ^ k := by
  rcases Nat.eq_zero_or_pos n with h0 | hpos
  · subst h0
    simp [roundF32]
  · have hy : (0 : ℚ) < (n : ℚ) * 2 ^ k := mul_pos (by exact_mod_cast hpos) (ulp_pos k)
    unfold roundF32
    rw [if_pos hy]
    exact roundPositive_of_scaled n k hpos hn hk

theorem roundPositive_idem (x : ℚ) (hx : 0 < x) :
    roundF32 (roundPositive x) = roundPositive x := by
  have hk : -149 ≤ floatExponent x - 23 := by
    have : -126 ≤ floatExponent x := le_max_right _ _
    omega
  have h0 : (0 : Int) ≤ roundHalfEven (x / 2 ^ (floatExponent x - 23)) :=
    le_roundHalfEven_of_le _ 0 (by simpa using le_of_lt (div_pos hx (ulp_pos _)))
  have hsplit : (2 : ℚ) ^ (floatExponent x + 1)
      = ((2 ^ 24 : Int) : ℚ) * 2 ^ (floatExponent x - 23) := by
    have : floatExponent x + 1 = 24 + (floatExponent x - 23) := by ring
    rw [this, zpow_add₀ (by norm_num)]
    norm_num
  have hle : roundHalfEven (x / 2 ^ (floatExponent x - 23)) ≤ (2 ^ 24 : Int) := by
    apply roundHalfEven_le_of_le
    rw [div_le_iff₀ (ulp_pos _), ← hsplit]
    exact le_of_lt (lt_zpow_floatExponent x)
  obtain ⟨N, hN⟩ := Int.eq_ofNat_of_zero_le h0
  have hrp : roundPositive x = (N : ℚ) * 2 ^ (floatExponent x - 23) := by
    unfold roundPositive
    rw [hN]
    norm_cast
  rw [hrp]
  rw [hN] at hle
  have hNle : N ≤ 2 ^ 24 := by exact_mod_cast hle
  rcases Nat.lt_or_ge N (2 ^ 24) with hlt | hge
  · exact roundF32_of_scaled N _ hlt hk
  · have hNeq : N = 2 ^ 24 := le_antisymm hNle hge
    have hre : (N : ℚ) * 2 ^ (floatExponent x - 23)
        = ((2 ^ 23 : Nat) : ℚ) * 2 ^ (floatExponent x - 22) := by
      have : floatExponent x - 22 = 1 + (floatExponent x - 23) := by ring
      rw [hNeq, this, zpow_add₀ (by norm_num : (2 : ℚ) ≠ 0)]
      norm_num
      ring
    rw [hre]
    exact roundF32_of_scaled (2 ^ 23) _ (by norm_num) (by omega)

theorem roundF32_neg (x : ℚ) : roundF32 (-x) = -roundF32 x := by
  unfold roundF32
  rcases lt_trichotomy x 0 with h | h | h
  · rw [if_pos (by linarith), if_neg (by linarith), if_pos h, neg_neg]
  · subst h
    simp
  · rw [if_neg (by linarith), if_pos (by linarith), if_pos h, neg_neg]

theorem roundF32_idem (x : ℚ) : roundF32 (roundF32 x) = roundF32 x := by
  rcases lt_trichotomy x 0 with h | h | h
  · have hx : roundF32 x = -roundPositive (-x) := by
      unfold roundF32
      rw [if_neg (by linarith), if_pos h]
    rw [hx, roundF32_neg, roundPositive_idem (-x) (by linarith)]
  · subst h
    simp [roundF32]
  · have hx : roundF32 x = roundPositive x := by
      unfold roundF32
      rw [if_pos h]
    rw [hx, roundPositive_idem x h]

/-! ## Lemmas on the guards of `PlayerInput` -/

theorem handle_input_passed {σ : Type} (generate : σ → Query × σ) (r : RoomBase) (g : σ)
    (clock : Nat → ℚ) (event : Event)
    (htype : event.type = EventType.PlayerInput) (hroom : event.roomId = r.id)
    (hpass : roundF32 (clock 0) ≤ roundF32 (r.tRoundStart_s + r.tRoundLength_s)) :
    handle generate r g clock event = playerInput generate r g clock event := by
  have hguard : ¬ roundF32 (clock 0) > roundF32 (r.tRoundStart_s + r.tRoundLength_s) :=
    not_lt.2 hpass
  simp only [handle, htype, hroom, ne_eq, not_true_eq_false, if_false, hguard]

theorem handle_input_accepted {σ : Type} (generate : σ → Query × σ) (r : RoomBase) (g : σ)
    (clock : Nat → ℚ) (event : Event)
    (htype : event.type = EventType.PlayerInput) (hroom : event.roomId = r.id)
    (htime : clock 0 ≤ r.tRoundStart_s + r.tRoundLength_s) :
    handle generate r g clock event = playerInput generate r g clock event :=
  handle_input_passed generate r g clock event htype hroom (roundF32_mono _ _ htime)

theorem handle_input_late {σ : Type} (generate : σ → Query × σ) (r : RoomBase) (g : σ)
    (clock : Nat → ℚ) (event : Event)
    (htype : event.type = EventType.PlayerInput) (hroom : event.roomId = r.id)
    (hlate : roundF32 (clock 0) > roundF32 (r.tRoundStart_s + r.tRoundLength_s)) :
    handle generate r g clock event = { room := r, gen := g, task := none } := by
  simp only [handle, htype, hroom, ne_eq, not_true_eq_false, if_false, hlate, if_true]

/-! ## Lemmas on the loops -/

theorem findPlayer_of_mem (c : Int) :
    ∀ ps : List PlayerInfo, (∃ p ∈ ps, p.clientId = c) → ∃ i, findPlayer c ps = some i := by
  intro ps
  induction ps with
  | nil => rintro ⟨p, hp, _⟩; cases hp
  | cons a ps ih =>
    rintro ⟨p, hp, hc⟩
    by_cases ha : a.clientId = c
    · exact ⟨0, by simp [findPlayer, ha]⟩
    · have hmem : p ∈ ps := by
        rcases List.mem_cons.1 hp with h | h
        · exact absurd (h ▸ hc) ha
        · exact h
      obtain ⟨i, hi⟩ := ih ⟨p, hmem, hc⟩
      exact ⟨i + 1, by simp [findPlayer, ha, hi]⟩

theorem scoreOf_of_mem (c : Int) (ps : List PlayerInfo) (h : ∃ p ∈ ps, p.clientId = c) :
    ∃ s, scoreOf c ps = some s := by
  induction ps with
  | nil => obtain ⟨p, hp, _⟩ := h; cases hp
  | cons a ps ih =>
    by_cases ha : a.clientId = c
    · exact ⟨a.score, by simp [scoreOf, List.find?, ha]⟩
    · obtain ⟨p, hp, hc⟩ := h
      have hmem : p ∈ ps := by
        rcases List.mem_cons.1 hp with h | h
        · exact absurd (h ▸ hc) ha
        · exact h
      obtain ⟨s, hs⟩ := ih ⟨p, hmem, hc⟩
      refine ⟨s, ?_⟩
      have hne : (a.clientId == c) = false := by simpa using ha
      simpa [scoreOf, List.find?, hne] using hs

theorem scoreOf_updatePlayer (c : Int) (f : PlayerInfo → PlayerInfo)
    (hf : ∀ p, (f p).clientId = p.clientId) :
    ∀ (ps : List PlayerInfo) (i : Nat), findPlayer c ps = some i →
      scoreOf c (updatePlayer f i ps)
        = (ps.find? (fun p => p.clientId == c)).map (fun p => (f p).score) := by
  intro ps
  induction ps with
  | nil => intro i h; simp [findPlayer] at h
  | cons a ps ih =>
    intro i h
    by_cases ha : a.clientId = c
    · have hi : i = 0 := by simpa [findPlayer, ha] using h.symm
      subst hi
      simp [updatePlayer, scoreOf, List.find?, ha, hf]
    · have hne : (a.clientId == c) = false := by simpa using ha
      simp only [findPlayer, ha, if_false, Option.map_eq_some'] at h
      obtain ⟨j, hj, rfl⟩ := h
      have := ih j hj
      simpa [updatePlayer, scoreOf, List.find?, hne] using this

theorem scanPool_eq_none {σ : Type} (generate : σ → Query × σ) (c : Int) (text : StdString)
    (t : ℚ) (g : σ) :
    ∀ pool : List Query, (∀ q ∈ pool, q.answer ≠ text) → scanPool generate c text t pool g = none := by
  intro pool
  induction pool with
  | nil => intro _; rfl
  | cons a pool ih =>
    intro h
    have ha : ¬ text = a.answer := fun e => h a (List.mem_cons_self _ _) e.symm
    simp [scanPool, ha, ih (fun q hq => h q (List.mem_cons_of_mem _ hq))]

theorem scanPool_of_mem {σ : Type} (generate : σ → Query × σ) (c : Int) (text : StdString)
    (t : ℚ) (g : σ) :
    ∀ pool : List Query, (∃ q ∈ pool, q.answer = text) →
      ∃ h, scanPool generate c text t pool g = some h ∧ h.gain = 3 + (1 / 5) * (text.length : ℚ) := by
  intro pool
  induction pool with
  | nil => rintro ⟨q, hq, _⟩; cases hq
  | cons a pool ih =>
    rintro ⟨q, hq, hqa⟩
    by_cases ha : text = a.answer
    · refine ⟨_, by rw [scanPool, if_pos ha], ?_⟩
      simp [ha]
    · have hmem : q ∈ pool := by
        rcases List.mem_cons.1 hq with h | h
        · exact absurd (h ▸ hqa.symm) ha
        · exact h
      obtain ⟨h, hh, hg⟩ := ih ⟨q, hmem, hqa⟩
      exact ⟨{ h with pool := a :: h.pool }, by simp [scanPool, ha, hh], hg⟩

/-! ## Scoring -/

/-- C1: a submission in the time window, to this room, from a client found among the
players, with a text that is the answer of an item of the pool, raises the score found
for that client by `3 + L / 5`, with `L` the length of the answer of any item the text
matches. -/
theorem correct_submission_gain {σ : Type} (generate : σ → Query × σ) (r : RoomBase) (g : σ)
    (clock : Nat → ℚ) (event : Event)
    (htype : event.type = EventType.PlayerInput) (hroom : event.roomId = r.id)
    (htime : clock 0 ≤ r.tRoundStart_s + r.tRoundLength_s)
    (hplayer : ∃ p ∈ r.players, p.clientId = event.clientId)
    (hmatch : ∃ q ∈ r.pool, q.answer = event.inputStr) :
    (∃ s, scoreOf event.clientId r.players = some s) ∧
    ∀ s q, scoreOf event.clientId r.players = some s → q ∈ r.pool →
      q.answer = event.inputStr →
      scoreOf event.clientId (handle generate r g clock event).room.players
        = some (s + (3 + (1 / 5) * (q.answer.length : ℚ))) := by
  refine ⟨scoreOf_of_mem _ _ hplayer, ?_⟩
  intro s q hs _ hqa
  obtain ⟨i, hi⟩ := findPlayer_of_mem _ _ hplayer
  obtain ⟨h, hh, hg⟩ := scanPool_of_mem generate event.clientId event.inputStr (clock 1) g
    r.pool hmatch
  rw [handle_input_accepted generate r g clock event htype hroom htime]
  simp only [playerInput, hi, hh]
  rw [scoreOf_updatePlayer event.clientId (fun p => { p with score := p.score + h.gain })
    (fun _ => rfl) _ _ hi]
  simp only [scoreOf, Option.map_eq_some'] at hs
  obtain ⟨p, hp, rfl⟩ := hs
  simp [hp, hg, hqa]

/-- C1, on an example: client 7 has score 0 and submits "cat"; the score becomes 3.6. -/
theorem correct_submission_gain_witness :
    scoreOf 7 catRoom.players = some 0 ∧
    scoreOf 7 (handle demoGenerate catRoom 0 (fun _ => 12) catInput).room.players
      = some (18 / 5) := by
  have h := (correct_submission_gain demoGenerate catRoom 0 (fun _ => 12) catInput rfl rfl
    (by norm_num [catRoom]) ⟨_, List.mem_cons_self _ _, rfl⟩
    ⟨catQuery, List.mem_cons_self _ _, rfl⟩).2 0 catQuery rfl (List.mem_cons_self _ _) rfl
  refine ⟨rfl, h.trans ?_⟩
  norm_num [catQuery]

/-- C2: a submission in the time window, to this room, from a client found among the
players, with a text that is the answer of no item of the pool, takes the score found
for that client to `max 0 (score - 1)` and changes neither `pool` nor `poolOld`. -/
theorem wrong_submission_penalty {σ : Type} (generate : σ → Query × σ) (r : RoomBase) (g : σ)
    (clock : Nat → ℚ) (event : Event)
    (htype : event.type = EventType.PlayerInput) (hroom : event.roomId = r.id)
    (htime : clock 0 ≤ r.tRoundStart_s + r.tRoundLength_s)
    (hplayer : ∃ p ∈ r.players, p.clientId = event.clientId)
    (hnomatch : ∀ q ∈ r.pool, q.answer ≠ event.inputStr) :
    (∃ s, scoreOf event.clientId r.players = some s) ∧
    (∀ s, scoreOf event.clientId r.players = some s →
      scoreOf event.clientId (handle generate r g clock event).room.players
        = some (max 0 (s - 1))) ∧
    (handle generate r g clock event).room.pool = r.pool ∧
    (handle generate r g clock event).room.poolOld = r.poolOld := by
  obtain ⟨i, hi⟩ := findPlayer_of_mem _ _ hplayer
  have hh := scanPool_eq_none generate event.clientId event.inputStr (clock 1) g r.pool hnomatch
  rw [handle_input_accepted generate r g clock event htype hroom htime]
  refine ⟨scoreOf_of_mem _ _ hplayer, ?_, ?_, ?_⟩
  · intro s hs
    simp only [playerInput, hi, hh]
    rw [scoreOf_updatePlayer event.clientId penalise
      (fun p => by unfold penalise; split <;> rfl) _ _ hi]
    simp only [scoreOf, Option.map_eq_some'] at hs
    obtain ⟨p, hp, rfl⟩ := hs
    simp only [hp, Option.map_some', Option.some.injEq]
    unfold penalise
    split
    · rename_i hlt
      exact (max_eq_left (le_of_lt hlt)).symm
    · rename_i hge
      exact (max_eq_right (not_lt.1 hge)).symm
  · simp only [playerInput, hi, hh]
  · simp only [playerInput, hi, hh]

/-- C2, on an example: client 7 submits "dog", which no item answers; the score 3.6
becomes 2.6, the score 0.5 becomes 0 and the pools stay. -/
theorem wrong_submission_penalty_witness :
    scoreOf 7 (handle demoGenerate (scoredRoom (18 / 5)) 0 (fun _ => 12) dogInput).room.players
      = some (13 / 5) ∧
    scoreOf 7 (handle demoGenerate (scoredRoom (1 / 2)) 0 (fun _ => 12) dogInput).room.players
      = some 0 ∧
    (handle demoGenerate (scoredRoom (18 / 5)) 0 (fun _ => 12) dogInput).room.pool
      = [catQuery, horseQuery] ∧
    (handle demoGenerate (scoredRoom (18 / 5)) 0 (fun _ => 12) dogInput).room.poolOld = [] := by
  have hno : ∀ s : ℚ, ∀ q ∈ (scoredRoom s).pool, q.answer ≠ dogInput.inputStr := by
    intro s q hq
    have hq2 : q = catQuery ∨ q = horseQuery := by simpa [scoredRoom, catRoom] using hq
    rcases hq2 with rfl | rfl <;> decide
  have h1 := wrong_submission_penalty demoGenerate (scoredRoom (18 / 5)) 0 (fun _ => 12)
    dogInput rfl rfl (by norm_num [scoredRoom, catRoom]) ⟨_, List.mem_cons_self _ _, rfl⟩ (hno _)
  have h2 := wrong_submission_penalty demoGenerate (scoredRoom (1 / 2)) 0 (fun _ => 12)
    dogInput rfl rfl (by norm_num [scoredRoom, catRoom]) ⟨_, List.mem_cons_self _ _, rfl⟩ (hno _)
  refine ⟨(h1.2.1 (18 / 5) rfl).trans ?_, (h2.2.1 (1 / 2) rfl).trans ?_, h1.2.2.1, h1.2.2.2⟩
  · norm_num
  · norm_num

/-! ## Starting a round -/

theorem sizeOfInt32_of_nonneg (n : Int) (h : 0 ≤ n) : ((sizeOfInt32 n : Nat) : Int) = n := by
  simp [sizeOfInt32, h]

theorem refill_length {σ : Type} (generate : σ → Query × σ) (target : Nat) :
    ∀ (fuel : Nat) (pool : List Query) (g : σ), pool.length ≤ target →
      target ≤ pool.length + fuel → (refill generate target fuel pool g).1.length = target := by
  intro fuel
  induction fuel with
  | zero =>
    intro pool g h1 h2
    simp only [refill]
    omega
  | succ n ih =>
    intro pool g h1 h2
    by_cases hlt : pool.length < target
    · simp only [refill, hlt, if_true]
      apply ih
      · simp only [List.length_append, List.length_singleton]; omega
      · simp only [List.length_append, List.length_singleton]; omega
    · simp only [refill, hlt, if_false]
      omega

theorem scanPool_length {σ : Type} (generate : σ → Query × σ) (c : Int) (text : StdString)
    (t : ℚ) (g : σ) :
    ∀ (pool : List Query) (h : Hit σ), scanPool generate c text t pool g = some h →
      h.pool.length = pool.length := by
  intro pool
  induction pool with
  | nil => intro h hh; simp [scanPool] at hh
  | cons a pool ih =>
    intro h hh
    by_cases ha : text = a.answer
    · rw [scanPool, if_pos ha] at hh
      cases hh
      rfl
    · rw [scanPool, if_neg ha] at hh
      simp only [Option.map_eq_some'] at hh
      obtain ⟨h0, hh0, rfl⟩ := hh
      simp [ih h0 hh0]

theorem playerInput_pool_length {σ : Type} (generate : σ → Query × σ) (r : RoomBase) (g : σ)
    (clock : Nat → ℚ) (event : Event) :
    (playerInput generate r g clock event).room.pool.length = r.pool.length := by
  unfold playerInput
  split
  · rfl
  · split
    · rename_i hit hh
      exact scanPool_length generate _ _ _ g r.pool hit hh
    · rfl

theorem playerInput_poolSize {σ : Type} (generate : σ → Query × σ) (r : RoomBase) (g : σ)
    (clock : Nat → ℚ) (event : Event) :
    (playerInput generate r g clock event).room.poolSize = r.poolSize := by
  unfold playerInput
  split
  · rfl
  · split <;> rfl

theorem handle_poolSize {σ : Type} (generate : σ → Query × σ) (r : RoomBase) (g : σ)
    (clock : Nat → ℚ) (event : Event) :
    (handle generate r g clock event).room.poolSize = r.poolSize := by
  unfold handle
  split
  · split <;> rfl
  · split <;> rfl
  · split <;> rfl
  · split
    · rfl
    · split
      · rfl
      · exact playerInput_poolSize generate r g clock event
  · rfl

theorem handle_pool_length {σ : Type} (generate : σ → Query × σ) (r : RoomBase) (g : σ)
    (clock : Nat → ℚ) (event : Event) (hpos : 0 ≤ r.poolSize)
    (hfull : (r.pool.length : Int) = r.poolSize) :
    ((handle generate r g clock event).room.pool.length : Int) = r.poolSize := by
  unfold handle
  split
  · split
    · exact hfull
    · simp only
      rw [refill_length generate _ _ [] g (Nat.zero_le _) (by simp)]
      exact sizeOfInt32_of_nonneg _ hpos
  · split <;> exact hfull
  · split <;> exact hfull
  · split
    · exact hfull
    · split
      · exact hfull
      · rw [playerInput_pool_length]
        exact hfull
  · exact hfull

theorem reachable_pool_length {σ : Type} (generate : σ → Query × σ) (r0 r : RoomBase)
    (hreach : Reachable generate r0 r) (hpos : 0 ≤ r0.poolSize)
    (hfull : (r0.pool.length : Int) = r0.poolSize) :
    (r.pool.length : Int) = r.poolSize ∧ r.poolSize = r0.poolSize := by
  induction hreach with
  | start => exact ⟨hfull, rfl⟩
  | step r1 g clock event _ ih =>
    have hsize := handle_poolSize generate r1 g clock event
    refine ⟨?_, hsize.trans ih.2⟩
    rw [hsize]
    exact handle_pool_length generate r1 g clock event (ih.2 ▸ hpos) ih.1

/-- C3: with `poolSize > 0`, right after a `StartNewRound` addressed to the room the
pool has `poolSize` items, and so has it in every room reached from there by any
sequence of events, whatever the times and the generator; `poolSize` itself never
changes. -/
theorem pool_size_invariant {σ : Type} (generate : σ → Query × σ) (r : RoomBase) (g : σ)
    (clock : Nat → ℚ) (event : Event)
    (htype : event.type = EventType.StartNewRound) (hroom : event.roomId = r.id)
    (hpos : 0 < r.poolSize) :
    ((handle generate r g clock event).room.pool.length : Int) = r.poolSize ∧
    ∀ r2, Reachable generate (handle generate r g clock event).room r2 →
      (r2.pool.length : Int) = r2.poolSize ∧ r2.poolSize = r.poolSize := by
  have hstart : ((handle generate r g clock event).room.pool.length : Int) = r.poolSize := by
    simp only [handle, htype, hroom, ne_eq, not_true_eq_false, if_false]
    rw [refill_length generate _ _ [] g (Nat.zero_le _) (by simp)]
    exact sizeOfInt32_of_nonneg _ (le_of_lt hpos)
  have hsize := handle_poolSize generate r g clock event
  refine ⟨hstart, fun r2 hreach => ?_⟩
  have h := reachable_pool_length generate _ r2 hreach (hsize ▸ le_of_lt hpos)
    (hsize ▸ hstart)
  exact ⟨h.1, h.2.trans hsize⟩

/-- C3, on an example: a room with `poolSize = 2` starts a round and client 7 then
solves "cat"; the pool has 2 items after the start and after the match. -/
theorem pool_size_invariant_witness :
    ((handle demoGenerate joinedRoom 0 (fun _ => 10) startRound).room.pool.length : Int) = 2 ∧
    ((handle demoGenerate (handle demoGenerate joinedRoom 0 (fun _ => 10) startRound).room 2
      (fun _ => 12) catInput).room.pool.length : Int) = 2 ∧
    (handle demoGenerate (handle demoGenerate joinedRoom 0 (fun _ => 10) startRound).room 2
      (fun _ => 12) catInput).room.poolOld.length = 1 := by
  have h := pool_size_invariant demoGenerate joinedRoom 0 (fun _ => 10) startRound rfl rfl
    (by decide)
  have h2 := h.2 _ (Reachable.step _ 2 (fun _ => 12) catInput Reachable.start)
  refine ⟨h.1, h2.1.trans h2.2, ?_⟩
  rw [handle_input_accepted demoGenerate _ 2 (fun _ => 12) catInput rfl rfl
    (by norm_num [handle, startRound, joinedRoom])]
  norm_num [handle, playerInput, findPlayer, scanPool, refill, sizeOfInt32, removeIf,
    resetScores, demoGenerate, joinedRoom, startRound, catInput]

theorem resetScores_eq_map (ps : List PlayerInfo) :
    resetScores ps = ps.map (fun p => { p with score := 0 }) := by
  induction ps with
  | nil => rfl
  | cons a ps ih => simp [resetScores, ih]

theorem removeIf_inactive (ps : List PlayerInfo) :
    removeIf (fun p => p.active == false) ps = ps.filter (fun p => p.active) := by
  unfold removeIf
  congr 1
  funext p
  cases h : p.active <;> simp [h]

/-- C4: after a `StartNewRound` addressed to the room, the players are the previous
players with `active == true`, in their previous order, each with its client id, still
active, and with score 0; no inactive player remains. -/
theorem start_round_players {σ : Type} (generate : σ → Query × σ) (r : RoomBase) (g : σ)
    (clock : Nat → ℚ) (event : Event)
    (htype : event.type = EventType.StartNewRound) (hroom : event.roomId = r.id) :
    (handle generate r g clock event).room.players
      = (r.players.filter (fun p => p.active)).map
          (fun p => { clientId := p.clientId, score := 0, active := true }) ∧
    (handle generate r g clock event).room.players.map (fun p => p.clientId)
      = (r.players.filter (fun p => p.active)).map (fun p => p.clientId) ∧
    (∀ p ∈ (handle generate r g clock event).room.players, p.active = true ∧ p.score = 0) := by
  have hplayers : (handle generate r g clock event).room.players
      = (r.players.filter (fun p => p.active)).map
          (fun p => { clientId := p.clientId, score := 0, active := true }) := by
    simp only [handle, htype, hroom, ne_eq, not_true_eq_false, if_false]
    rw [removeIf_inactive, resetScores_eq_map]
    apply List.map_congr_left
    intro p hp
    have hact : p.active = true := by simpa using (List.mem_filter.1 hp).2
    simp [hact]
  refine ⟨hplayers, ?_, ?_⟩
  · rw [hplayers, List.map_map]
    rfl
  · intro p hp
    rw [hplayers] at hp
    obtain ⟨q, _, rfl⟩ := List.mem_map.1 hp
    exact ⟨rfl, rfl⟩

/-- C4, on an example: of the players 7 (active, 3.6), 8 (inactive, 2) and 9 (active, 1),
the players 7 and 9 remain, in this order, with score 0. -/
theorem start_round_players_witness :
    (handle demoGenerate joinedRoom 0 (fun _ => 10) startRound).room.players
      = [{ clientId := 7, score := 0, active := true },
         { clientId := 9, score := 0, active := true }] :=
  (start_round_players demoGenerate joinedRoom 0 (fun _ => 10) startRound rfl rfl).1.trans
    (by simp [joinedRoom])

/-! ## Joining and leaving -/

theorem joinRoom_cons_eq (c : Int) (a : PlayerInfo) (ps : List PlayerInfo)
    (ha : a.clientId = c) : joinRoom c (a :: ps) = { a with active := true } :: ps := by
  simp [joinRoom, activate, ha]

theorem joinRoom_cons_ne (c : Int) (a : PlayerInfo) (ps : List PlayerInfo)
    (ha : a.clientId ≠ c) : joinRoom c (a :: ps) = a :: joinRoom c ps := by
  unfold joinRoom
  simp only [activate, ha, if_false]
  cases activate c ps <;> rfl

theorem activate_clientIds (c : Int) :
    ∀ ps qs : List PlayerInfo, activate c ps = some qs →
      qs.map (fun p => p.clientId) = ps.map (fun p => p.clientId) := by
  intro ps
  induction ps with
  | nil => intro qs h; simp [activate] at h
  | cons a ps ih =>
    intro qs h
    by_cases ha : a.clientId = c
    · rw [activate, if_pos ha] at h
      cases h
      rfl
    · rw [activate, if_neg ha] at h
      simp only [Option.map_eq_some'] at h
      obtain ⟨qs0, h0, rfl⟩ := h
      simp [ih qs0 h0]

theorem joinRoom_joinRoom (c : Int) (ps : List PlayerInfo) :
    joinRoom c (joinRoom c ps) = joinRoom c ps := by
  induction ps with
  | nil => simp [joinRoom, activate]
  | cons a ps ih =>
    by_cases ha : a.clientId = c
    · rw [joinRoom_cons_eq c a ps ha]
      exact joinRoom_cons_eq c _ ps ha
    · rw [joinRoom_cons_ne c a ps ha, joinRoom_cons_ne c a _ ha, ih]

theorem joinRoom_filter (c : Int) (ps : List PlayerInfo) (huniq : UniqueIds ps) :
    ∃ p, (joinRoom c ps).filter (fun q => q.clientId == c) = [p] ∧ p.active = true := by
  induction ps with
  | nil => exact ⟨{ clientId := c, active := true }, by simp [joinRoom, activate], rfl⟩
  | cons a ps ih =>
    have hnd : a.clientId ∉ ps.map (fun p => p.clientId) ∧ UniqueIds ps := by
      simpa [UniqueIds] using huniq
    by_cases ha : a.clientId = c
    · refine ⟨{ a with active := true }, ?_, rfl⟩
      rw [joinRoom_cons_eq c a ps ha]
      have hrest : ps.filter (fun q => q.clientId == c) = [] := by
        rw [List.filter_eq_nil_iff]
        intro q hq hqc
        exact hnd.1 (List.mem_map.2 ⟨q, hq, by rw [ha]; simpa using hqc⟩)
      simp [List.filter, ha, hrest]
    · obtain ⟨p, hp, hact⟩ := ih hnd.2
      refine ⟨p, ?_, hact⟩
      rw [joinRoom_cons_ne c a ps ha]
      have hne : (a.clientId == c) = false := by simpa using ha
      simp [List.filter, hne, hp]

theorem handle_join_here {σ : Type} (generate : σ → Query × σ) (r : RoomBase) (g : σ)
    (clock : Nat → ℚ) (event : Event)
    (htype : event.type = EventType.PlayerJoinRoom) (hroom : event.roomId = r.id) :
    handle generate r g clock event
      = { room := { r with players := joinRoom event.clientId r.players }, gen := g,
          task := none } := by
  simp only [handle, htype, hroom, if_true]

theorem handle_join_elsewhere {σ : Type} (generate : σ → Query × σ) (r : RoomBase) (g : σ)
    (clock : Nat → ℚ) (event : Event)
    (htype : event.type = EventType.PlayerJoinRoom) (hroom : event.roomId ≠ r.id) :
    handle generate r g clock event
      = { room := { r with players := leaveRoom event.clientId r.players }, gen := g,
          task := none } := by
  simp only [handle, htype, hroom, if_false]

/-- C5: when the client ids of the players are pairwise distinct, handling a
`PlayerJoinRoom` addressed to the room twice gives the same room as handling it once,
whatever the times and generator states; that room has exactly one player with the
client id of the event, and this player is active. -/
theorem join_idempotent {σ : Type} (generate : σ → Query × σ) (r : RoomBase) (g g2 : σ)
    (clock clock2 : Nat → ℚ) (event : Event)
    (htype : event.type = EventType.PlayerJoinRoom) (hroom : event.roomId = r.id)
    (huniq : UniqueIds r.players) :
    (handle generate (handle generate r g clock event).room g2 clock2 event).room
      = (handle generate r g clock event).room ∧
    ∃ p, (handle generate r g clock event).room.players.filter
          (fun q => q.clientId == event.clientId) = [p] ∧ p.active = true := by
  have h1 := handle_join_here generate r g clock event htype hroom
  have h2 := handle_join_here generate (handle generate r g clock event).room g2 clock2 event
    htype (by rw [h1]; exact hroom)
  constructor
  · rw [h2, h1]
    simp only [joinRoom_joinRoom]
  · rw [h1]
    exact joinRoom_filter event.clientId r.players huniq

/-- C5, on an example: client 7 joins the empty room 1 twice; the room is the same after
the second join as after the first, with the one player 7, active and with score 0. -/
theorem join_idempotent_witness :
    (handle demoGenerate (handle demoGenerate emptyRoom 0 (fun _ => 1) joinSeven).room 0
      (fun _ => 2) joinSeven).room = (handle demoGenerate emptyRoom 0 (fun _ => 1) joinSeven).room ∧
    (handle demoGenerate emptyRoom 0 (fun _ => 1) joinSeven).room.players
      = [{ clientId := 7, score := 0, active := true }] :=
  ⟨(join_idempotent demoGenerate emptyRoom 0 0 (fun _ => 1) (fun _ => 2) joinSeven rfl rfl
    (by simp [UniqueIds, emptyRoom])).1, by rfl⟩

theorem leaveRoom_eq_map (c : Int) (ps : List PlayerInfo) :
    leaveRoom c ps
      = ps.map (fun p => if p.clientId = c then { p with active := false } else p) := by
  induction ps with
  | nil => rfl
  | cons a ps ih => simp [leaveRoom, ih]

/-- C6: a `PlayerJoinRoom` addressed to another room changes no field of the room but
`players`, and of the players only the active flag of those with the client id of the
event, which becomes false: length, order, client ids and scores stay, and so does every
player with another client id. Nothing is generated and no task is scheduled. -/
theorem join_elsewhere_frame {σ : Type} (generate : σ → Query × σ) (r : RoomBase) (g : σ)
    (clock : Nat → ℚ) (event : Event)
    (htype : event.type = EventType.PlayerJoinRoom) (hroom : event.roomId ≠ r.id) :
    (handle generate r g clock event).room
      = { r with players := r.players.map (fun p =>
            if p.clientId = event.clientId then { p with active := false } else p) } ∧
    (handle generate r g clock event).room.players.length = r.players.length ∧
    (handle generate r g clock event).room.players.map (fun p => p.clientId)
      = r.players.map (fun p => p.clientId) ∧
    (handle generate r g clock event).room.players.map (fun p => p.score)
      = r.players.map (fun p => p.score) ∧
    (∀ p ∈ (handle generate r g clock event).room.players,
      p.clientId = event.clientId → p.active = false) ∧
    (∀ (i : Nat) (p : PlayerInfo), r.players[i]? = some p → p.clientId ≠ event.clientId →
      (handle generate r g clock event).room.players[i]? = some p) ∧
    (handle generate r g clock event).gen = g ∧
    (handle generate r g clock event).task = none := by
  rw [handle_join_elsewhere generate r g clock event htype hroom, leaveRoom_eq_map]
  refine ⟨rfl, by simp, ?_, ?_, ?_, ?_, rfl, rfl⟩
  · simp only [List.map_map]
    apply List.map_congr_left
    intro p _
    simp only [Function.comp]
    split <;> rfl
  · simp only [List.map_map]
    apply List.map_congr_left
    intro p _
    simp only [Function.comp]
    split <;> rfl
  · intro p hp hc
    obtain ⟨q, _, rfl⟩ := List.mem_map.1 hp
    by_cases hq : q.clientId = event.clientId
    · simp [hq]
    · simp only [hq, if_false] at hc
  · intro i p hi hc
    simp only [List.getElem?_map, hi, Option.map_some', hc, if_false]

/-- C6, on an example: client 7 joins room 2; in room 1 the player 7 becomes inactive and
keeps its score, the players 8 and 9 stay as they are. -/
theorem join_elsewhere_frame_witness :
    (handle demoGenerate joinedRoom 0 (fun _ => 1) leaveSeven).room
      = { joinedRoom with
          players := [{ clientId := 7, score := 18 / 5, active := false },
                      { clientId := 8, score := 2, active := false },
                      { clientId := 9, score := 1, active := true }] } :=
  (join_elsewhere_frame demoGenerate joinedRoom 0 (fun _ => 1) leaveSeven rfl
    (by decide)).1.trans (by simp [joinedRoom, leaveSeven])

/-! ## Invariants of the players -/

theorem clientIds_resetScores (ps : List PlayerInfo) :
    (resetScores ps).map (fun p => p.clientId) = ps.map (fun p => p.clientId) := by
  induction ps with
  | nil => rfl
  | cons a ps ih => simp [resetScores, ih]

theorem clientIds_leaveRoom (c : Int) (ps : List PlayerInfo) :
    (leaveRoom c ps).map (fun p => p.clientId) = ps.map (fun p => p.clientId) := by
  induction ps with
  | nil => rfl
  | cons a ps ih =>
    simp only [leaveRoom, List.map_cons, ih, List.cons.injEq, and_true]
    split <;> rfl

theorem clientIds_updatePlayer (f : PlayerInfo → PlayerInfo)
    (hf : ∀ p, (f p).clientId = p.clientId) :
    ∀ (i : Nat) (ps : List PlayerInfo),
      (updatePlayer f i ps).map (fun p => p.clientId) = ps.map (fun p => p.clientId) := by
  intro i ps
  induction ps generalizing i with
  | nil => cases i <;> rfl
  | cons a ps ih =>
    cases i with
    | zero => simp [updatePlayer, hf]
    | succ j => simp [updatePlayer, ih j]

theorem penalise_clientId (p : PlayerInfo) : (penalise p).clientId = p.clientId := by
  unfold penalise
  split <;> rfl

theorem uniqueIds_joinRoom (c : Int) (ps : List PlayerInfo) (h : UniqueIds ps) :
    UniqueIds (joinRoom c ps) := by
  induction ps with
  | nil => simp [UniqueIds, joinRoom, activate]
  | cons a ps ih =>
    have hnd : a.clientId ∉ ps.map (fun p => p.clientId) ∧ UniqueIds ps := by
      simpa [UniqueIds] using h
    by_cases ha : a.clientId = c
    · rw [joinRoom_cons_eq c a ps ha]
      simpa [UniqueIds] using h
    · rw [joinRoom_cons_ne c a ps ha]
      have hrec := ih hnd.2
      have hnotin : a.clientId ∉ (joinRoom c ps).map (fun p => p.clientId) := by
        intro hin
        obtain ⟨q, hq, hqa⟩ := List.mem_map.1 hin
        unfold joinRoom at hq
        cases hact : activate c ps with
        | none =>
          rw [hact] at hq
          rcases List.mem_append.1 hq with hq | hq
          · exact hnd.1 (List.mem_map.2 ⟨q, hq, hqa⟩)
          · have hqc : q = { clientId := c, active := true } := by simpa using hq
            rw [hqc] at hqa
            exact ha hqa.symm
        | some qs =>
          rw [hact] at hq
          exact hnd.1 (by
            rw [← activate_clientIds c ps qs hact]
            exact List.mem_map.2 ⟨q, hq, hqa⟩)
      unfold UniqueIds at hrec ⊢
      rw [List.map_cons, List.nodup_cons]
      exact ⟨hnotin, hrec⟩

theorem playerInput_clientIds {σ : Type} (generate : σ → Query × σ) (r : RoomBase) (g : σ)
    (clock : Nat → ℚ) (event : Event) :
    (playerInput generate r g clock event).room.players.map (fun p => p.clientId)
      = r.players.map (fun p => p.clientId) := by
  unfold playerInput
  split
  · rfl
  · split
    · rename_i hit _
      exact clientIds_updatePlayer (fun p => { p with score := p.score + hit.gain })
        (fun _ => rfl) _ _
    · exact clientIds_updatePlayer _ penalise_clientId _ _

/-- C7: a room without players has pairwise distinct client ids, and if the client ids
of the players are pairwise distinct before `handle`, they are so after it, for every
event, time and generator. -/
theorem unique_ids_invariant {σ : Type} (generate : σ → Query × σ) (r : RoomBase) (g : σ)
    (clock : Nat → ℚ) (event : Event) :
    (r.players = [] → UniqueIds r.players) ∧
    (UniqueIds r.players → UniqueIds (handle generate r g clock event).room.players) := by
  constructor
  · intro h
    rw [h]
    exact List.nodup_nil
  intro h
  unfold handle
  split
  · split
    · exact h
    · unfold UniqueIds
      simp only
      rw [clientIds_resetScores, removeIf]
      exact List.Nodup.sublist (List.Sublist.map _ (List.filter_sublist _)) h
  · split <;> exact h
  · split
    · exact uniqueIds_joinRoom _ _ h
    · unfold UniqueIds
      simp only
      rw [clientIds_leaveRoom]
      exact h
  · split
    · exact h
    · split
      · exact h
      · unfold UniqueIds
        rw [playerInput_clientIds]
        exact h
  · exact h

/-- C7, on an example: the players 7, 8 and 9 of `joinedRoom` have distinct ids, and
have so after client 9 joins again. -/
theorem unique_ids_invariant_witness :
    UniqueIds joinedRoom.players ∧
    UniqueIds (handle demoGenerate joinedRoom 0 (fun _ => 1)
      { type := EventType.PlayerJoinRoom, roomId := 1, clientId := 9 }).room.players :=
  ⟨by simp [UniqueIds, joinedRoom],
   (unique_ids_invariant demoGenerate joinedRoom 0 (fun _ => 1)
      { type := EventType.PlayerJoinRoom, roomId := 1, clientId := 9 }).2
      (by simp [UniqueIds, joinedRoom])⟩

theorem scoresNonneg_resetScores (ps : List PlayerInfo) : ScoresNonneg (resetScores ps) := by
  rw [resetScores_eq_map]
  intro p hp
  obtain ⟨q, _, rfl⟩ := List.mem_map.1 hp
  exact le_refl _

theorem scoresNonneg_leaveRoom (c : Int) (ps : List PlayerInfo) (h : ScoresNonneg ps) :
    ScoresNonneg (leaveRoom c ps) := by
  rw [leaveRoom_eq_map]
  intro p hp
  obtain ⟨q, hq, rfl⟩ := List.mem_map.1 hp
  split
  · exact h q hq
  · exact h q hq

theorem scoresNonneg_joinRoom (c : Int) (ps : List PlayerInfo) (h : ScoresNonneg ps) :
    ScoresNonneg (joinRoom c ps) := by
  induction ps with
  | nil =>
    intro p hp
    have hpc : p = { clientId := c, active := true } := by
      simpa [joinRoom, activate] using hp
    rw [hpc]
  | cons a ps ih =>
    have hps : ScoresNonneg ps := fun p hp => h p (List.mem_cons_of_mem _ hp)
    have hsa : 0 ≤ a.score := h a (List.mem_cons_self _ _)
    by_cases ha : a.clientId = c
    · rw [joinRoom_cons_eq c a ps ha]
      intro p hp
      rcases List.mem_cons.1 hp with rfl | hp
      · exact hsa
      · exact hps p hp
    · rw [joinRoom_cons_ne c a ps ha]
      intro p hp
      rcases List.mem_cons.1 hp with rfl | hp
      · exact hsa
      · exact ih hps p hp

theorem scoresNonneg_updatePlayer (f : PlayerInfo → PlayerInfo)
    (hf : ∀ p, 0 ≤ p.score → 0 ≤ (f p).score) :
    ∀ (i : Nat) (ps : List PlayerInfo), ScoresNonneg ps → ScoresNonneg (updatePlayer f i ps) := by
  intro i ps
  induction ps generalizing i with
  | nil => intro h; cases i <;> exact h
  | cons a ps ih =>
    intro h
    have hps : ScoresNonneg ps := fun p hp => h p (List.mem_cons_of_mem _ hp)
    have hsa : 0 ≤ a.score := h a (List.mem_cons_self _ _)
    cases i with
    | zero =>
      intro p hp
      rcases List.mem_cons.1 hp with rfl | hp
      · exact hf a hsa
      · exact hps p hp
    | succ j =>
      intro p hp
      rcases List.mem_cons.1 hp with rfl | hp
      · exact hsa
      · exact ih j hps p hp

theorem scanPool_gain_nonneg {σ : Type} (generate : σ → Query × σ) (c : Int)
    (text : StdString) (t : ℚ) (g : σ) :
    ∀ (pool : List Query) (h : Hit σ), scanPool generate c text t pool g = some h →
      0 ≤ h.gain := by
  intro pool
  induction pool with
  | nil => intro h hh; simp [scanPool] at hh
  | cons a pool ih =>
    intro h hh
    by_cases ha : text = a.answer
    · rw [scanPool, if_pos ha] at hh
      cases hh
      positivity
    · rw [scanPool, if_neg ha] at hh
      simp only [Option.map_eq_some'] at hh
      obtain ⟨h0, hh0, rfl⟩ := hh
      exact ih h0 hh0

theorem penalise_nonneg (p : PlayerInfo) : 0 ≤ (penalise p).score := by
  unfold penalise
  split
  · exact le_refl _
  · rename_i hge
    exact not_lt.1 hge

theorem playerInput_scoresNonneg {σ : Type} (generate : σ → Query × σ) (r : RoomBase) (g : σ)
    (clock : Nat → ℚ) (event : Event) (h : ScoresNonneg r.players) :
    ScoresNonneg (playerInput generate r g clock event).room.players := by
  unfold playerInput
  split
  · exact h
  · split
    · rename_i hit hh
      have hgain := scanPool_gain_nonneg generate _ _ _ g r.pool hit hh
      exact scoresNonneg_updatePlayer (fun p => { p with score := p.score + hit.gain })
        (fun p hp => add_nonneg hp hgain) _ _ h
    · exact scoresNonneg_updatePlayer penalise (fun p _ => penalise_nonneg p) _ _ h

theorem handle_scoresNonneg {σ : Type} (generate : σ → Query × σ) (r : RoomBase) (g : σ)
    (clock : Nat → ℚ) (event : Event) (h : ScoresNonneg r.players) :
    ScoresNonneg (handle generate r g clock event).room.players := by
  unfold handle
  split
  · split
    · exact h
    · exact scoresNonneg_resetScores _
  · split <;> exact h
  · split
    · exact scoresNonneg_joinRoom _ _ h
    · exact scoresNonneg_leaveRoom _ _ h
  · split
    · exact h
    · split
      · exact h
      · exact playerInput_scoresNonneg generate r g clock event h
  · exact h

/-- C8: if no player has a negative score before `handle`, none has after it, for every
event, time and generator; hence no player has a negative score in any room reached
from a room without players. -/
theorem scores_nonneg_invariant {σ : Type} (generate : σ → Query × σ) (r : RoomBase) (g : σ)
    (clock : Nat → ℚ) (event : Event) :
    (ScoresNonneg r.players → ScoresNonneg (handle generate r g clock event).room.players) ∧
    (∀ r0 : RoomBase, r0.players = [] → Reachable generate r0 r → ScoresNonneg r.players) := by
  refine ⟨handle_scoresNonneg generate r g clock event, ?_⟩
  intro r0 h0 hreach
  induction hreach with
  | start =>
    rw [h0]
    intro p hp
    cases hp
  | step r1 g1 clock1 event1 _ ih => exact handle_scoresNonneg generate r1 g1 clock1 event1 ih

/-- C8, on an example: client 7 has the score 0.5 and submits the wrong text "dog"; no
score of the room is negative afterwards. -/
theorem scores_nonneg_invariant_witness :
    ScoresNonneg (scoredRoom (1 / 2)).players ∧
    ScoresNonneg (handle demoGenerate (scoredRoom (1 / 2)) 0 (fun _ => 12) dogInput).room.players :=
  have h : ScoresNonneg (scoredRoom (1 / 2)).players := by
    intro p hp
    have hp2 : p = { clientId := 7, score := 1 / 2, active := true } := by
      simpa [scoredRoom] using hp
    rw [hp2]
    norm_num
  ⟨h, (scores_nonneg_invariant demoGenerate (scoredRoom (1 / 2)) 0 (fun _ => 12) dogInput).1 h⟩

/-! ## Ignored events -/

/-- C10: a `StartNewRound`, `EndRound` or `PlayerInput` whose room id is not the id of
the room changes nothing: the room is the same, nothing is generated, no task is
scheduled. -/
theorem other_room_ignored {σ : Type} (generate : σ → Query × σ) (r : RoomBase) (g : σ)
    (clock : Nat → ℚ) (event : Event)
    (htype : event.type = EventType.StartNewRound ∨ event.type = EventType.EndRound ∨
      event.type = EventType.PlayerInput)
    (hroom : event.roomId ≠ r.id) :
    (handle generate r g clock event).room = r ∧
    (handle generate r g clock event).gen = g ∧
    (handle generate r g clock event).task = none := by
  rcases htype with htype | htype | htype <;>
    simp only [handle, htype, hroom, ne_eq, not_false_eq_true, if_true, and_self]

/-- C10, on an example: a `StartNewRound`, an `EndRound` and a right answer, all for
room 2, leave room 1 as it is and schedule nothing. -/
theorem other_room_ignored_witness :
    ((handle demoGenerate catRoom 0 (fun _ => 12)
        { type := EventType.StartNewRound, roomId := 2 }).room = catRoom ∧
      (handle demoGenerate catRoom 0 (fun _ => 12)
        { type := EventType.StartNewRound, roomId := 2 }).task = none) ∧
    ((handle demoGenerate catRoom 0 (fun _ => 12)
        { type := EventType.EndRound, roomId := 2 }).room = catRoom ∧
      (handle demoGenerate catRoom 0 (fun _ => 12)
        { type := EventType.EndRound, roomId := 2 }).task = none) ∧
    ((handle demoGenerate catRoom 0 (fun _ => 12)
        { catInput with roomId := 2 }).room = catRoom ∧
      (handle demoGenerate catRoom 0 (fun _ => 12) { catInput with roomId := 2 }).task = none) :=
  have h1 := other_room_ignored demoGenerate catRoom 0 (fun _ => 12)
    { type := EventType.StartNewRound, roomId := 2 } (Or.inl rfl) (by decide)
  have h2 := other_room_ignored demoGenerate catRoom 0 (fun _ => 12)
    { type := EventType.EndRound, roomId := 2 } (Or.inr (Or.inl rfl)) (by decide)
  have h3 := other_room_ignored demoGenerate catRoom 0 (fun _ => 12)
    { catInput with roomId := 2 } (Or.inr (Or.inr rfl)) (by decide)
  ⟨⟨h1.1, h1.2.2⟩, ⟨h2.1, h2.2.2⟩, ⟨h3.1, h3.2.2⟩⟩

/-! ## Who may submit -/

theorem playerInput_match_score {σ : Type} (generate : σ → Query × σ) (r : RoomBase) (g : σ)
    (clock : Nat → ℚ) (event : Event)
    (hplayer : ∃ p ∈ r.players, p.clientId = event.clientId)
    (hmatch : ∃ q ∈ r.pool, q.answer = event.inputStr) (s : ℚ)
    (hs : scoreOf event.clientId r.players = some s) :
    scoreOf event.clientId (playerInput generate r g clock event).room.players
      = some (s + (3 + (1 / 5) * (event.inputStr.length : ℚ))) := by
  obtain ⟨i, hi⟩ := findPlayer_of_mem _ _ hplayer
  obtain ⟨h, hh, hg⟩ := scanPool_of_mem generate event.clientId event.inputStr (clock 1) g
    r.pool hmatch
  simp only [playerInput, hi, hh]
  rw [scoreOf_updatePlayer event.clientId (fun p => { p with score := p.score + h.gain })
    (fun _ => rfl) _ _ hi]
  simp only [scoreOf, Option.map_eq_some'] at hs
  obtain ⟨p, hp, rfl⟩ := hs
  simp [hp, hg]

theorem playerInput_miss_score {σ : Type} (generate : σ → Query × σ) (r : RoomBase) (g : σ)
    (clock : Nat → ℚ) (event : Event)
    (hplayer : ∃ p ∈ r.players, p.clientId = event.clientId)
    (hmiss : ∀ q ∈ r.pool, q.answer ≠ event.inputStr) (s : ℚ)
    (hs : scoreOf event.clientId r.players = some s) :
    scoreOf event.clientId (playerInput generate r g clock event).room.players
      = some (max 0 (s - 1)) := by
  obtain ⟨i, hi⟩ := findPlayer_of_mem _ _ hplayer
  have hh := scanPool_eq_none generate event.clientId event.inputStr (clock 1) g r.pool hmiss
  simp only [playerInput, hi, hh]
  rw [scoreOf_updatePlayer event.clientId penalise penalise_clientId _ _ hi]
  simp only [scoreOf, Option.map_eq_some'] at hs
  obtain ⟨p, hp, rfl⟩ := hs
  simp only [hp, Option.map_some', Option.some.injEq]
  unfold penalise
  split
  · rename_i hlt
    exact (max_eq_left (le_of_lt hlt)).symm
  · rename_i hge
    exact (max_eq_right (not_lt.1 hge)).symm

theorem actives_updatePlayer (f : PlayerInfo → PlayerInfo)
    (hf : ∀ p, (f p).active = p.active) :
    ∀ (i : Nat) (ps : List PlayerInfo),
      (updatePlayer f i ps).map (fun p => p.active) = ps.map (fun p => p.active) := by
  intro i ps
  induction ps generalizing i with
  | nil => cases i <;> rfl
  | cons a ps ih =>
    cases i with
    | zero => simp [updatePlayer, hf]
    | succ j => simp [updatePlayer, ih j]

theorem penalise_active (p : PlayerInfo) : (penalise p).active = p.active := by
  unfold penalise
  split <;> rfl

theorem playerInput_actives {σ : Type} (generate : σ → Query × σ) (r : RoomBase) (g : σ)
    (clock : Nat → ℚ) (event : Event) :
    (playerInput generate r g clock event).room.players.map (fun p => p.active)
      = r.players.map (fun p => p.active) := by
  unfold playerInput
  split
  · rfl
  · split
    · rename_i hit _
      exact actives_updatePlayer (fun p => { p with score := p.score + hit.gain })
        (fun _ => rfl) _ _
    · exact actives_updatePlayer _ penalise_active _ _

theorem findPlayer_eq_none (c : Int) :
    ∀ ps : List PlayerInfo, (∀ p ∈ ps, p.clientId ≠ c) → findPlayer c ps = none := by
  intro ps
  induction ps with
  | nil => intro _; rfl
  | cons a ps ih =>
    intro h
    have ha : a.clientId ≠ c := h a (List.mem_cons_self _ _)
    simp [findPlayer, ha, ih (fun p hp => h p (List.mem_cons_of_mem _ hp))]

/-- C11, as the claim states it, fails: client 7 has an inactive entry in the room and
submits "cat" in the time window; the room changes, the score of the entry becomes 3.6,
the item is retired. -/
theorem inactive_submission_counterexample :
    catInput.type = EventType.PlayerInput ∧ catInput.roomId = inactiveRoom.id ∧
    (∃ p ∈ inactiveRoom.players, p.clientId = catInput.clientId ∧ p.active = false) ∧
    (handle demoGenerate inactiveRoom 0 (fun _ => 12) catInput).room ≠ inactiveRoom ∧
    (handle demoGenerate inactiveRoom 0 (fun _ => 12) catInput).room.players
      = [{ clientId := 7, score := 18 / 5, active := false }] ∧
    (handle demoGenerate inactiveRoom 0 (fun _ => 12) catInput).room.poolOld
      = [{ catQuery with clientId := 7, tGuessed_s := 12 }] := by
  have hacc := handle_input_accepted demoGenerate inactiveRoom 0 (fun _ => 12) catInput rfl
    rfl (by norm_num [inactiveRoom, catRoom])
  have hplayers : (handle demoGenerate inactiveRoom 0 (fun _ => 12) catInput).room.players
      = [{ clientId := 7, score := 18 / 5, active := false }] := by
    rw [hacc]
    norm_num [playerInput, findPlayer, scanPool, updatePlayer, inactiveRoom, catRoom,
      catInput, catQuery]
  refine ⟨rfl, rfl, ⟨_, List.mem_cons_self _ _, rfl, rfl⟩, ?_, hplayers, ?_⟩
  · intro h
    rw [h] at hplayers
    have hscore : (0 : ℚ) = 18 / 5 := by
      simpa [inactiveRoom] using hplayers
    norm_num at hscore
  · rw [hacc]
    norm_num [playerInput, findPlayer, scanPool, updatePlayer, inactiveRoom, catRoom,
      catInput, catQuery]

/-- C11, amended: a `PlayerInput` addressed to the room in the time window from a client
whose entry is inactive is scored like any other, the lookup does not read the flag: the
score found for the client rises by `3 + L / 5` when the text is the answer of an item
and becomes `max 0 (score - 1)` when it is not; the active flags stay as they are. -/
theorem inactive_submission_scored {σ : Type} (generate : σ → Query × σ) (r : RoomBase)
    (g : σ) (clock : Nat → ℚ) (event : Event)
    (htype : event.type = EventType.PlayerInput) (hroom : event.roomId = r.id)
    (htime : clock 0 ≤ r.tRoundStart_s + r.tRoundLength_s)
    (hplayer : ∃ p ∈ r.players, p.clientId = event.clientId ∧ p.active = false) :
    (∃ s, scoreOf event.clientId r.players = some s) ∧
    (∀ s, scoreOf event.clientId r.players = some s →
      ((∃ q ∈ r.pool, q.answer = event.inputStr) →
        scoreOf event.clientId (handle generate r g clock event).room.players
          = some (s + (3 + (1 / 5) * (event.inputStr.length : ℚ)))) ∧
      ((∀ q ∈ r.pool, q.answer ≠ event.inputStr) →
        scoreOf event.clientId (handle generate r g clock event).room.players
          = some (max 0 (s - 1)))) ∧
    (handle generate r g clock event).room.players.map (fun p => p.active)
      = r.players.map (fun p => p.active) := by
  have hmem : ∃ p ∈ r.players, p.clientId = event.clientId := by
    obtain ⟨p, hp, hc, _⟩ := hplayer
    exact ⟨p, hp, hc⟩
  rw [handle_input_accepted generate r g clock event htype hroom htime]
  refine ⟨scoreOf_of_mem _ _ hmem, fun s hs => ⟨fun hmatch => ?_, fun hmiss => ?_⟩, ?_⟩
  · exact playerInput_match_score generate r g clock event hmem hmatch s hs
  · exact playerInput_miss_score generate r g clock event hmem hmiss s hs
  · exact playerInput_actives generate r g clock event

/-- C11 amended, on an example: the inactive client 7 submits "cat" and gets 3.6, and
stays inactive. -/
theorem inactive_submission_scored_witness :
    scoreOf 7 (handle demoGenerate inactiveRoom 0 (fun _ => 12) catInput).room.players
      = some (18 / 5) ∧
    (handle demoGenerate inactiveRoom 0 (fun _ => 12) catInput).room.players.map
      (fun p => p.active) = [false] := by
  have h := inactive_submission_scored demoGenerate inactiveRoom 0 (fun _ => 12) catInput
    rfl rfl (by norm_num [inactiveRoom, catRoom]) ⟨_, List.mem_cons_self _ _, rfl, rfl⟩
  refine ⟨((h.2.1 0 rfl).1 ⟨catQuery, List.mem_cons_self _ _, rfl⟩).trans ?_, h.2.2⟩
  norm_num [catInput]

/-- C12: a `PlayerInput` whose client id is the id of no player changes nothing, whatever
its room id, its time and its text: the room is the same, nothing is generated, no task
is scheduled. -/
theorem unknown_client_ignored {σ : Type} (generate : σ → Query × σ) (r : RoomBase) (g : σ)
    (clock : Nat → ℚ) (event : Event)
    (htype : event.type = EventType.PlayerInput)
    (hunknown : ∀ p ∈ r.players, p.clientId ≠ event.clientId) :
    (handle generate r g clock event).room = r ∧
    (handle generate r g clock event).gen = g ∧
    (handle generate r g clock event).task = none := by
  have hfind := findPlayer_eq_none event.clientId r.players hunknown
  simp only [handle, htype]
  split
  · exact ⟨rfl, rfl, rfl⟩
  · split
    · exact ⟨rfl, rfl, rfl⟩
    · simp only [playerInput, hfind, and_self]

/-- C12, on an example: client 99 is not a player of `catRoom` and submits the right
answer "cat" in the time window; the room stays as it is and the generator is not
called. -/
theorem unknown_client_ignored_witness :
    (∃ q ∈ catRoom.pool, q.answer = strangerInput.inputStr) ∧
    (handle demoGenerate catRoom 0 (fun _ => 12) strangerInput).room = catRoom ∧
    (handle demoGenerate catRoom 0 (fun _ => 12) strangerInput).gen = 0 :=
  have h := unknown_client_ignored demoGenerate catRoom 0 (fun _ => 12) strangerInput rfl
    (by
      intro p hp
      have hp2 : p = { clientId := 7, score := 0, active := true } := by
        simpa [catRoom] using hp
      rw [hp2]
      decide)
  ⟨⟨catQuery, List.mem_cons_self _ _, rfl⟩, h.1, h.2.1⟩

/-! ## Retiring an item -/

theorem scanPool_first {σ : Type} (generate : σ → Query × σ) (c : Int) (text : StdString)
    (t : ℚ) (g : σ) :
    ∀ (pool : List Query) (i : Nat) (q : Query), pool[i]? = some q → q.answer = text →
      (∀ (j : Nat) (x : Query), j < i → pool[j]? = some x → x.answer ≠ text) →
      scanPool generate c text t pool g
        = some
            { pool := pool.set i (generate g).1
              retired := { q with clientId := c, tGuessed_s := t }
              gain := 3 + (1 / 5) * (q.answer.length : ℚ)
              gen := (generate g).2 } := by
  intro pool
  induction pool with
  | nil => intro i q hi; simp at hi
  | cons a pool ih =>
    intro i q hi hq hfirst
    cases i with
    | zero =>
      have haq : a = q := by simpa using hi
      subst haq
      rw [scanPool, if_pos hq.symm]
      rfl
    | succ k =>
      have ha : ¬ text = a.answer := fun e =>
        hfirst 0 a (Nat.succ_pos k) (by simp) e.symm
      have hk : pool[k]? = some q := by simpa using hi
      have hrec := ih k q hk hq (fun j x hj hx =>
        hfirst (j + 1) x (Nat.succ_lt_succ hj) (by simpa using hx))
      rw [scanPool, if_neg ha, hrec]
      rfl

/-- C13: for a `PlayerInput` addressed to the room, in the time window, from a client
found among the players, let `i` be the first index of the pool whose answer is the
text, and `q` the item there. After `handle`, `poolOld` is the old `poolOld` with one
item appended, which is `q` with its text and answer, stamped with the client id and the
time read at the stamp (`clock 1`, the second reading of the clock); slot `i` of the pool
holds the item of one call of `generate()`, every other slot is unchanged, and the
generator is in the state after this one call. -/
theorem match_retires_first {σ : Type} (generate : σ → Query × σ) (r : RoomBase) (g : σ)
    (clock : Nat → ℚ) (event : Event)
    (htype : event.type = EventType.PlayerInput) (hroom : event.roomId = r.id)
    (htime : clock 0 ≤ r.tRoundStart_s + r.tRoundLength_s)
    (hplayer : ∃ p ∈ r.players, p.clientId = event.clientId)
    (i : Nat) (q : Query) (hi : r.pool[i]? = some q) (hq : q.answer = event.inputStr)
    (hfirst : ∀ (j : Nat) (x : Query), j < i → r.pool[j]? = some x →
      x.answer ≠ event.inputStr) :
    (handle generate r g clock event).room.poolOld
      = r.poolOld ++ [{ x := q.x, y := q.y, clientId := event.clientId,
                        tGuessed_s := clock 1, text := q.text, answer := q.answer }] ∧
    (handle generate r g clock event).room.pool = r.pool.set i (generate g).1 ∧
    (handle generate r g clock event).room.pool[i]? = some (generate g).1 ∧
    (∀ j : Nat, j ≠ i → (handle generate r g clock event).room.pool[j]? = r.pool[j]?) ∧
    (handle generate r g clock event).gen = (generate g).2 := by
  obtain ⟨k, hk⟩ := findPlayer_of_mem _ _ hplayer
  have hscan := scanPool_first generate event.clientId event.inputStr (clock 1) g r.pool i q
    hi hq hfirst
  have hlt : i < r.pool.length := by
    rcases Nat.lt_or_ge i r.pool.length with h | h
    · exact h
    · rw [List.getElem?_eq_none h] at hi
      cases hi
  rw [handle_input_accepted generate r g clock event htype hroom htime]
  simp only [playerInput, hk, hscan, true_and, and_true]
  refine ⟨?_, ?_⟩
  · simp [List.getElem?_set, hlt]
  · intro j hj
    simp [List.getElem?_set, Ne.symm hj]

/-- C13, on an example: the pool holds "horse", "cat" and "cat" again; client 7 submits
"cat" at 12 s. The first "cat" is retired with the stamp (7, 12), its slot takes the
generated item, the second "cat" stays in its slot. -/
theorem match_retires_first_witness :
    (handle demoGenerate twinRoom 1 (fun _ => 12) catInput).room.poolOld
      = [{ catQuery with clientId := 7, tGuessed_s := 12 }] ∧
    (handle demoGenerate twinRoom 1 (fun _ => 12) catInput).room.pool
      = [horseQuery, horseQuery, catAgain] ∧
    (handle demoGenerate twinRoom 1 (fun _ => 12) catInput).gen = 2 := by
  have h := match_retires_first demoGenerate twinRoom 1 (fun _ => 12) catInput rfl rfl
    (by norm_num [twinRoom, catRoom]) ⟨_, List.mem_cons_self _ _, rfl⟩ 1 catQuery rfl rfl
    (by
      intro j x hj hx
      have hj0 : j = 0 := by omega
      subst hj0
      have hx2 : horseQuery = x := by simpa [twinRoom] using hx
      rw [← hx2]
      decide)
  exact ⟨h.1, h.2.1, h.2.2.2.2⟩

/-! ## The effects of a round start and of a round end -/

/-- C16: a `ClientChangeName`, a `ClientChangeColor` or an `Unknown` event, whatever its
room id, client id and text, changes nothing: `handle` returns the room as it was, the
generator as it was, and no task. -/
theorem client_events_ignored {σ : Type} (generate : σ → Query × σ) (r : RoomBase) (g : σ)
    (clock : Nat → ℚ) (event : Event)
    (htype : event.type = EventType.ClientChangeName ∨
      event.type = EventType.ClientChangeColor ∨ event.type = EventType.Unknown) :
    (handle generate r g clock event).room = r ∧
    (handle generate r g clock event).gen = g ∧
    (handle generate r g clock event).task = none := by
  rcases htype with htype | htype | htype <;> simp only [handle, htype, and_self]

/-- C16, on an example: a change of name, a change of colour and a default-constructed
event leave `catRoom` as it is and schedule nothing. -/
theorem client_events_ignored_witness :
    ((handle demoGenerate catRoom 0 (fun _ => 12) renameSeven).room = catRoom ∧
      (handle demoGenerate catRoom 0 (fun _ => 12) renameSeven).task = none) ∧
    ((handle demoGenerate catRoom 0 (fun _ => 12)
        { renameSeven with type := EventType.ClientChangeColor }).room = catRoom ∧
      (handle demoGenerate catRoom 0 (fun _ => 12)
        { renameSeven with type := EventType.ClientChangeColor }).task = none) ∧
    ((handle demoGenerate catRoom 0 (fun _ => 12) {}).room = catRoom ∧
      (handle demoGenerate catRoom 0 (fun _ => 12) {}).task = none) :=
  have h1 := client_events_ignored demoGenerate catRoom 0 (fun _ => 12) renameSeven
    (Or.inl rfl)
  have h2 := client_events_ignored demoGenerate catRoom 0 (fun _ => 12)
    { renameSeven with type := EventType.ClientChangeColor } (Or.inr (Or.inl rfl))
  have h3 := client_events_ignored demoGenerate catRoom 0 (fun _ => 12) {}
    (Or.inr (Or.inr rfl))
  ⟨⟨h1.1, h1.2.2⟩, ⟨h2.1, h2.2.2⟩, ⟨h3.1, h3.2.2⟩⟩

/-! ## What a submission leaves alone -/

theorem findPlayer_some_mem (c : Int) :
    ∀ (ps : List PlayerInfo) (i : Nat), findPlayer c ps = some i →
      ∃ p ∈ ps, p.clientId = c := by
  intro ps
  induction ps with
  | nil => intro i h; simp [findPlayer] at h
  | cons a ps ih =>
    intro i h
    by_cases ha : a.clientId = c
    · exact ⟨a, List.mem_cons_self _ _, ha⟩
    · rw [findPlayer, if_neg ha] at h
      simp only [Option.map_eq_some'] at h
      obtain ⟨j, hj, _⟩ := h
      obtain ⟨p, hp, hc⟩ := ih j hj
      exact ⟨p, List.mem_cons_of_mem _ hp, hc⟩

theorem scanPool_some_mem {σ : Type} (generate : σ → Query × σ) (c : Int) (text : StdString)
    (t : ℚ) (g : σ) :
    ∀ (pool : List Query) (h : Hit σ), scanPool generate c text t pool g = some h →
      ∃ q ∈ pool, q.answer = text := by
  intro pool
  induction pool with
  | nil => intro h hh; simp [scanPool] at hh
  | cons a pool ih =>
    intro h hh
    by_cases ha : text = a.answer
    · exact ⟨a, List.mem_cons_self _ _, ha.symm⟩
    · rw [scanPool, if_neg ha] at hh
      simp only [Option.map_eq_some'] at hh
      obtain ⟨h0, hh0, _⟩ := hh
      obtain ⟨q, hq, hqa⟩ := ih h0 hh0
      exact ⟨q, List.mem_cons_of_mem _ hq, hqa⟩

theorem playerInput_poolOld {σ : Type} (generate : σ → Query × σ) (r : RoomBase) (g : σ)
    (clock : Nat → ℚ) (event : Event) :
    ((playerInput generate r g clock event).room.poolOld = r.poolOld ∧
      ¬ ((∃ p ∈ r.players, p.clientId = event.clientId) ∧
        ∃ q ∈ r.pool, q.answer = event.inputStr)) ∨
    ((∃ q, (playerInput generate r g clock event).room.poolOld = r.poolOld ++ [q]) ∧
      (∃ p ∈ r.players, p.clientId = event.clientId) ∧
      ∃ q ∈ r.pool, q.answer = event.inputStr) := by
  unfold playerInput
  split
  · rename_i hnone
    refine Or.inl ⟨rfl, ?_⟩
    rintro ⟨hp, _⟩
    obtain ⟨i, hi⟩ := findPlayer_of_mem _ _ hp
    rw [hi] at hnone
    cases hnone
  · rename_i i hi
    split
    · rename_i hit hh
      exact Or.inr ⟨⟨hit.retired, rfl⟩, findPlayer_some_mem _ _ _ hi,
        scanPool_some_mem generate _ _ _ g r.pool hit hh⟩
    · rename_i hnone
      refine Or.inl ⟨rfl, ?_⟩
      rintro ⟨_, hq⟩
      obtain ⟨h, hh, _⟩ := scanPool_of_mem generate event.clientId event.inputStr (clock 1) g
        r.pool hq
      rw [hh] at hnone
      cases hnone

/-- C18: for every event but a `StartNewRound` addressed to the room, `poolOld` after
`handle` is `poolOld` before it followed by at most one item; and it is followed by
exactly one item exactly when the event is a `PlayerInput` addressed to the room, which
the time guard lets pass (the reading is at most the `float` sum
`tRoundStart_s + tRoundLength_s`), from a client found among the players, with a text
that is the answer of an item of the pool. -/
theorem retired_append_only {σ : Type} (generate : σ → Query × σ) (r : RoomBase) (g : σ)
    (clock : Nat → ℚ) (event : Event)
    (hother : ¬ (event.type = EventType.StartNewRound ∧ event.roomId = r.id)) :
    (∃ added : List Query,
      (handle generate r g clock event).room.poolOld = r.poolOld ++ added ∧
      added.length ≤ 1) ∧
    ((handle generate r g clock event).room.poolOld.length = r.poolOld.length + 1 ↔
      (event.type = EventType.PlayerInput ∧ event.roomId = r.id ∧
        roundF32 (clock 0) ≤ roundF32 (r.tRoundStart_s + r.tRoundLength_s) ∧
        (∃ p ∈ r.players, p.clientId = event.clientId) ∧
        ∃ q ∈ r.pool, q.answer = event.inputStr)) := by
  have hsame : ∀ o : Outcome σ, o.room.poolOld = r.poolOld →
      (∃ added : List Query, o.room.poolOld = r.poolOld ++ added ∧ added.length ≤ 1) ∧
      ¬ o.room.poolOld.length = r.poolOld.length + 1 := by
    intro o ho
    refine ⟨⟨[], by simp [ho], by simp⟩, ?_⟩
    rw [ho]
    omega
  cases htype : event.type with
  | StartNewRound =>
    have hroom : event.roomId ≠ r.id := fun e => hother ⟨htype, e⟩
    have hout := hsame (handle generate r g clock event)
      (by simp only [handle, htype, hroom, ne_eq, not_false_eq_true, if_true])
    exact ⟨hout.1, ⟨fun h => absurd h hout.2, fun h => by cases h.1⟩⟩
  | EndRound =>
    have hout := hsame (handle generate r g clock event)
      (by simp only [handle, htype]; split <;> rfl)
    exact ⟨hout.1, ⟨fun h => absurd h hout.2, fun h => by cases h.1⟩⟩
  | PlayerJoinRoom =>
    have hout := hsame (handle generate r g clock event)
      (by simp only [handle, htype]; split <;> rfl)
    exact ⟨hout.1, ⟨fun h => absurd h hout.2, fun h => by cases h.1⟩⟩
  | ClientChangeName =>
    have hout := hsame (handle generate r g clock event) (by simp only [handle, htype])
    exact ⟨hout.1, ⟨fun h => absurd h hout.2, fun h => by cases h.1⟩⟩
  | ClientChangeColor =>
    have hout := hsame (handle generate r g clock event) (by simp only [handle, htype])
    exact ⟨hout.1, ⟨fun h => absurd h hout.2, fun h => by cases h.1⟩⟩
  | Unknown =>
    have hout := hsame (handle generate r g clock event) (by simp only [handle, htype])
    exact ⟨hout.1, ⟨fun h => absurd h hout.2, fun h => by cases h.1⟩⟩
  | PlayerInput =>
    by_cases hroom : event.roomId = r.id
    · by_cases htime : roundF32 (clock 0) ≤ roundF32 (r.tRoundStart_s + r.tRoundLength_s)
      · rw [handle_input_passed generate r g clock event htype hroom htime]
        rcases playerInput_poolOld generate r g clock event with ⟨hold, hno⟩ | ⟨⟨q, hq⟩, hyes⟩
        · have hout := hsame _ hold
          exact ⟨hout.1, ⟨fun h => absurd h hout.2, fun h => absurd h.2.2.2 hno⟩⟩
        · refine ⟨⟨[q], hq, by simp⟩, ⟨fun _ => ⟨rfl, hroom, htime, hyes⟩, fun _ => ?_⟩⟩
          rw [hq]
          simp
      · have hlate : roundF32 (clock 0) > roundF32 (r.tRoundStart_s + r.tRoundLength_s) :=
          not_le.1 htime
        have hout := hsame (handle generate r g clock event)
          (by rw [handle_input_late generate r g clock event htype hroom hlate])
        exact ⟨hout.1, ⟨fun h => absurd h hout.2, fun h => absurd h.2.2.1 htime⟩⟩
    · have hout := hsame (handle generate r g clock event)
        (by simp only [handle, htype, hroom, ne_eq, not_false_eq_true, if_true])
      exact ⟨hout.1, ⟨fun h => absurd h hout.2, fun h => absurd h.2.1 hroom⟩⟩

/-- C18, on an example: `poolOld` of a room holds "horse"; the right answer "cat" puts
the stamped "cat" behind it, the wrong answer "dog" leaves it as it is. -/
theorem retired_append_only_witness :
    (handle demoGenerate { catRoom with poolOld := [horseQuery] } 0 (fun _ => 12)
      catInput).room.poolOld
      = [horseQuery] ++ [{ catQuery with clientId := 7, tGuessed_s := 12 }] ∧
    (handle demoGenerate { catRoom with poolOld := [horseQuery] } 0 (fun _ => 12)
      dogInput).room.poolOld = [horseQuery] := by
  have h2 := retired_append_only demoGenerate { catRoom with poolOld := [horseQuery] } 0
    (fun _ => 12) dogInput (by decide)
  obtain ⟨added, hadd, hlen⟩ := h2.1
  constructor
  · rw [handle_input_accepted demoGenerate _ 0 (fun _ => 12) catInput rfl rfl
      (by norm_num [catRoom])]
    norm_num [playerInput, findPlayer, scanPool, updatePlayer, catRoom, catInput, catQuery]
  · have hnot : ¬ (handle demoGenerate { catRoom with poolOld := [horseQuery] } 0
        (fun _ => 12) dogInput).room.poolOld.length = 1 + 1 := by
      intro hl
      obtain ⟨_, _, _, _, q, hq, hqa⟩ := h2.2.1 hl
      have hq2 : q = catQuery ∨ q = horseQuery := by simpa [catRoom] using hq
      rcases hq2 with rfl | rfl <;> exact absurd hqa (by decide)
    rw [hadd] at hnot ⊢
    match added, hlen, hnot with
    | [], _, _ => rfl
    | [_], _, hn => exact absurd rfl hn

/-- C19: the only time check of `PlayerInput` is the upper bound. A submission addressed
to the room from a client found among the players is scored whenever the time read is at
most `tRoundStart_s + tRoundLength_s`, however early it is: `3 + L / 5` more on a match,
`max 0 (score - 1)` otherwise. So there is a room and a time before its round start at
which `handle` changes the score of the submitting player. -/
theorem no_lower_time_bound {σ : Type} (generate : σ → Query × σ) (r : RoomBase) (g : σ)
    (clock : Nat → ℚ) (event : Event)
    (htype : event.type = EventType.PlayerInput) (hroom : event.roomId = r.id)
    (htime : clock 0 ≤ r.tRoundStart_s + r.tRoundLength_s)
    (hplayer : ∃ p ∈ r.players, p.clientId = event.clientId) :
    (∀ s, scoreOf event.clientId r.players = some s →
      ((∃ q ∈ r.pool, q.answer = event.inputStr) →
        scoreOf event.clientId (handle generate r g clock event).room.players
          = some (s + (3 + (1 / 5) * (event.inputStr.length : ℚ)))) ∧
      ((∀ q ∈ r.pool, q.answer ≠ event.inputStr) →
        scoreOf event.clientId (handle generate r g clock event).room.players
          = some (max 0 (s - 1)))) ∧
    ∃ (r0 : RoomBase) (now : ℚ) (e : Event), e.type = EventType.PlayerInput ∧
      now < r0.tRoundStart_s ∧
      scoreOf e.clientId (handle demoGenerate r0 0 (fun _ => now) e).room.players
        ≠ scoreOf e.clientId r0.players := by
  rw [handle_input_accepted generate r g clock event htype hroom htime]
  refine ⟨fun s hs => ⟨fun hmatch => ?_, fun hmiss => ?_⟩, ?_⟩
  · exact playerInput_match_score generate r g clock event hplayer hmatch s hs
  · exact playerInput_miss_score generate r g clock event hplayer hmiss s hs
  · refine ⟨catRoom, 3, catInput, rfl, by norm_num [catRoom], ?_⟩
    have hafter : scoreOf catInput.clientId
        (handle demoGenerate catRoom 0 (fun _ => 3) catInput).room.players = some (18 / 5) := by
      rw [handle_input_accepted demoGenerate catRoom 0 (fun _ => 3) catInput rfl rfl
        (by norm_num [catRoom])]
      refine (playerInput_match_score demoGenerate catRoom 0 (fun _ => 3) catInput
        ⟨_, List.mem_cons_self _ _, rfl⟩ ⟨catQuery, List.mem_cons_self _ _, rfl⟩ 0 rfl).trans ?_
      norm_num [catInput]
    have hbefore : scoreOf catInput.clientId catRoom.players = some 0 := rfl
    rw [hafter, hbefore]
    norm_num

/-- C19, on an example: the round of `catRoom` started at 10 s; the answer "cat"
submitted at 3 s takes the score of client 7 from 0 to 3.6. -/
theorem no_lower_time_bound_witness :
    (3 : ℚ) < catRoom.tRoundStart_s ∧
    scoreOf 7 catRoom.players = some 0 ∧
    scoreOf 7 (handle demoGenerate catRoom 0 (fun _ => 3) catInput).room.players
      = some (18 / 5) := by
  have h := no_lower_time_bound demoGenerate catRoom 0 (fun _ => 3) catInput rfl rfl
    (by norm_num [catRoom]) ⟨_, List.mem_cons_self _ _, rfl⟩
  refine ⟨by norm_num [catRoom], rfl, ?_⟩
  refine ((h.1 0 rfl).1 ⟨catQuery, List.mem_cons_self _ _, rfl⟩).trans ?_
  norm_num [catInput]

theorem length_updatePlayer (f : PlayerInfo → PlayerInfo) :
    ∀ (i : Nat) (ps : List PlayerInfo), (updatePlayer f i ps).length = ps.length := by
  intro i ps
  induction ps generalizing i with
  | nil => cases i <;> rfl
  | cons a ps ih =>
    cases i with
    | zero => rfl
    | succ j => simp [updatePlayer, ih j]

theorem updatePlayer_other (c : Int) (f : PlayerInfo → PlayerInfo) :
    ∀ (ps : List PlayerInfo) (i j : Nat) (p : PlayerInfo), findPlayer c ps = some i →
      ps[j]? = some p → p.clientId ≠ c → (updatePlayer f i ps)[j]? = some p := by
  intro ps
  induction ps with
  | nil => intro i j p h; simp [findPlayer] at h
  | cons a ps ih =>
    intro i j p hfind hj hc
    by_cases ha : a.clientId = c
    · have hi : i = 0 := by simpa [findPlayer, ha] using hfind.symm
      subst hi
      cases j with
      | zero =>
        have hap : a = p := by simpa using hj
        exact absurd (hap ▸ ha) hc
      | succ k => simpa [updatePlayer] using hj
    · rw [findPlayer, if_neg ha] at hfind
      simp only [Option.map_eq_some'] at hfind
      obtain ⟨i0, hi0, rfl⟩ := hfind
      cases j with
      | zero => simpa [updatePlayer] using hj
      | succ k =>
        have hk : ps[k]? = some p := by simpa using hj
        simpa [updatePlayer] using ih i0 k p hi0 hk hc

theorem playerInput_frame {σ : Type} (generate : σ → Query × σ) (r : RoomBase) (g : σ)
    (clock : Nat → ℚ) (event : Event) :
    (playerInput generate r g clock event).room.players.length = r.players.length ∧
    (∀ (i : Nat) (p : PlayerInfo), r.players[i]? = some p → p.clientId ≠ event.clientId →
      (playerInput generate r g clock event).room.players[i]? = some p) ∧
    (playerInput generate r g clock event).room.roundId = r.roundId ∧
    (playerInput generate r g clock event).room.tRoundStart_s = r.tRoundStart_s ∧
    (playerInput generate r g clock event).room.tNextRoundStart_s = r.tNextRoundStart_s ∧
    (playerInput generate r g clock event).task = none := by
  unfold playerInput
  split
  · exact ⟨rfl, fun _ _ h _ => h, rfl, rfl, rfl, rfl⟩
  · rename_i k hk
    split
    · exact ⟨length_updatePlayer _ _ _,
        fun i p hi hc => updatePlayer_other event.clientId _ r.players k i p hk hi hc,
        rfl, rfl, rfl, rfl⟩
    · exact ⟨length_updatePlayer _ _ _,
        fun i p hi hc => updatePlayer_other event.clientId _ r.players k i p hk hi hc,
        rfl, rfl, rfl, rfl⟩

theorem handle_input_cases {σ : Type} (generate : σ → Query × σ) (r : RoomBase) (g : σ)
    (clock : Nat → ℚ) (event : Event) (htype : event.type = EventType.PlayerInput) :
    handle generate r g clock event = { room := r, gen := g, task := none } ∨
    handle generate r g clock event = playerInput generate r g clock event := by
  simp only [handle, htype]
  split
  · exact Or.inl rfl
  · split
    · exact Or.inl rfl
    · exact Or.inr rfl

/-- C20: a `PlayerInput`, matching or not, accepted or not, in a room whose players have
distinct client ids or not, keeps the length and the order of the players, the client id and the active flag of each of them, and the whole
entry of every player whose client id is not that of the event; it keeps `roundId`,
`tRoundStart_s` and `tNextRoundStart_s`, and schedules no task. -/
theorem input_frame {σ : Type} (generate : σ → Query × σ) (r : RoomBase) (g : σ)
    (clock : Nat → ℚ) (event : Event)
    (htype : event.type = EventType.PlayerInput) :
    (handle generate r g clock event).room.players.length = r.players.length ∧
    (handle generate r g clock event).room.players.map (fun p => p.clientId)
      = r.players.map (fun p => p.clientId) ∧
    (handle generate r g clock event).room.players.map (fun p => p.active)
      = r.players.map (fun p => p.active) ∧
    (∀ (i : Nat) (p : PlayerInfo), r.players[i]? = some p → p.clientId ≠ event.clientId →
      (handle generate r g clock event).room.players[i]? = some p) ∧
    (handle generate r g clock event).room.roundId = r.roundId ∧
    (handle generate r g clock event).room.tRoundStart_s = r.tRoundStart_s ∧
    (handle generate r g clock event).room.tNextRoundStart_s = r.tNextRoundStart_s ∧
    (handle generate r g clock event).task = none := by
  rcases handle_input_cases generate r g clock event htype with h | h
  · rw [h]
    exact ⟨rfl, rfl, rfl, fun _ _ hi _ => hi, rfl, rfl, rfl, rfl⟩
  · rw [h]
    have hf := playerInput_frame generate r g clock event
    exact ⟨hf.1, playerInput_clientIds generate r g clock event,
      playerInput_actives generate r g clock event, hf.2.1, hf.2.2.1, hf.2.2.2.1,
      hf.2.2.2.2.1, hf.2.2.2.2.2⟩

/-- C20, on an example: the players 7, 8 and 9 are in a round and client 7 solves "cat";
the players 8 and 9 are as before, and client 7 is still first and active. -/
theorem input_frame_witness :
    (handle demoGenerate roundRoom 0 (fun _ => 12) catInput).room.players
      = [{ clientId := 7, score := 36 / 5, active := true },
         { clientId := 8, score := 2, active := false },
         { clientId := 9, score := 1, active := true }] ∧
    (handle demoGenerate roundRoom 0 (fun _ => 12) catInput).task = none := by
  have h := input_frame demoGenerate roundRoom 0 (fun _ => 12) catInput rfl
  refine ⟨?_, h.2.2.2.2.2.2.2⟩
  rw [handle_input_accepted demoGenerate roundRoom 0 (fun _ => 12) catInput rfl rfl
    (by norm_num [roundRoom, joinedRoom])]
  norm_num [playerInput, findPlayer, scanPool, updatePlayer, roundRoom, joinedRoom,
    catInput, catQuery]

/-! ## The time guard -/

theorem roundF32_natCast (n : Nat) (hn : n < 2 ^ 24) : roundF32 (n : ℚ) = (n : ℚ) := by
  have h := roundF32_of_scaled n 0 hn (by norm_num)
  simpa using h

theorem roundF32_edgeTime : roundF32 edgeTime = edgeTime := by
  have h := roundF32_of_scaled 6296699 (-20) (by norm_num) (by norm_num)
  unfold edgeTime
  norm_num at h ⊢
  exact h

theorem roundF32_edgeSum :
    roundF32 (edgeRoom.tRoundStart_s + edgeRoom.tRoundLength_s) = edgeTime := by
  have hsum : edgeRoom.tRoundStart_s + edgeRoom.tRoundLength_s = 8430551 / 8388608 + 5 := by
    norm_num [edgeRoom, catRoom]
  rw [hsum, roundF32_eq (8430551 / 8388608 + 5) 2 12593398 (by norm_num) (by norm_num)
    (by norm_num) (by norm_num) (by norm_num)]
  unfold edgeTime
  norm_num

/-- C9, as the claim states it, fails: the round of the room started at the `float`
1.005 and lasts 5 s, and the right answer arrives at the `float` 6.005, which is later
than the exact sum of the two; the `float` sum of line 226 is 6.005 itself, the guard
lets the submission pass, client 7 gets 3.6 and the item is retired. -/
theorem late_submission_counterexample :
    catInput.type = EventType.PlayerInput ∧ catInput.roomId = edgeRoom.id ∧
    edgeTime > edgeRoom.tRoundStart_s + edgeRoom.tRoundLength_s ∧
    roundF32 edgeTime = edgeTime ∧
    roundF32 edgeRoom.tRoundStart_s = edgeRoom.tRoundStart_s ∧
    roundF32 edgeRoom.tRoundLength_s = edgeRoom.tRoundLength_s ∧
    (handle demoGenerate edgeRoom 0 (fun _ => edgeTime) catInput).room ≠ edgeRoom ∧
    (handle demoGenerate edgeRoom 0 (fun _ => edgeTime) catInput).room.players
      = [{ clientId := 7, score := 18 / 5, active := true }] ∧
    (handle demoGenerate edgeRoom 0 (fun _ => edgeTime) catInput).room.poolOld
      = [{ catQuery with clientId := 7, tGuessed_s := edgeTime }] := by
  have hpass := handle_input_passed demoGenerate edgeRoom 0 (fun _ => edgeTime) catInput rfl
    rfl (by rw [roundF32_edgeSum, roundF32_edgeTime])
  have hplayers : (handle demoGenerate edgeRoom 0 (fun _ => edgeTime) catInput).room.players
      = [{ clientId := 7, score := 18 / 5, active := true }] := by
    rw [hpass]
    norm_num [playerInput, findPlayer, scanPool, updatePlayer, edgeRoom, catRoom, catInput,
      catQuery]
  have hstart : roundF32 edgeRoom.tRoundStart_s = edgeRoom.tRoundStart_s := by
    have h := roundF32_of_scaled 8430551 (-23) (by norm_num) (by norm_num)
    have he : edgeRoom.tRoundStart_s = 8430551 / 8388608 := rfl
    rw [he]
    norm_num at h ⊢
    exact h
  have hlen : roundF32 edgeRoom.tRoundLength_s = edgeRoom.tRoundLength_s := by
    have h := roundF32_natCast 5 (by norm_num)
    have he : edgeRoom.tRoundLength_s = 5 := rfl
    rw [he]
    exact_mod_cast h
  refine ⟨rfl, rfl, by norm_num [edgeTime, edgeRoom, catRoom], roundF32_edgeTime, hstart,
    hlen, ?_, hplayers, ?_⟩
  · intro h
    rw [h] at hplayers
    have hscore : (0 : ℚ) = 18 / 5 := by
      simpa [edgeRoom, catRoom] using hplayers
    norm_num at hscore
  · rw [hpass]
    norm_num [playerInput, findPlayer, scanPool, updatePlayer, edgeRoom, catRoom, catInput,
      catQuery]

/-- C9, amended: the guard of a `PlayerInput` addressed to the room compares the time
read with the `float` sum `tRoundStart_s + tRoundLength_s`, the exact sum rounded to the
nearest `float`. When the time read is greater than this sum, nothing changes: the room
is the same, nothing is generated, no task is scheduled; that is so for every time
greater than the exact sum whenever the exact sum is a `float`. When the time read is
at most this sum, in particular when it is the exact sum, the submission is processed:
for a client found among the players a matching text raises the score by `3 + L / 5`
and retires an item, another text takes the score to `max 0 (score - 1)`. -/
theorem late_submission_ignored {σ : Type} (generate : σ → Query × σ) (r : RoomBase) (g : σ)
    (clock : Nat → ℚ) (event : Event)
    (htype : event.type = EventType.PlayerInput) (hroom : event.roomId = r.id) :
    (roundF32 (clock 0) > roundF32 (r.tRoundStart_s + r.tRoundLength_s) →
      (handle generate r g clock event).room = r ∧
      (handle generate r g clock event).gen = g ∧
      (handle generate r g clock event).task = none) ∧
    (roundF32 (clock 0) = clock 0 →
      roundF32 (r.tRoundStart_s + r.tRoundLength_s) = r.tRoundStart_s + r.tRoundLength_s →
      clock 0 > r.tRoundStart_s + r.tRoundLength_s →
      (handle generate r g clock event).room = r ∧
      (handle generate r g clock event).gen = g ∧
      (handle generate r g clock event).task = none) ∧
    ((clock 0 = r.tRoundStart_s + r.tRoundLength_s ∨
        roundF32 (clock 0) ≤ roundF32 (r.tRoundStart_s + r.tRoundLength_s)) →
      (∃ p ∈ r.players, p.clientId = event.clientId) →
      ∀ s, scoreOf event.clientId r.players = some s →
        ((∃ q ∈ r.pool, q.answer = event.inputStr) →
          scoreOf event.clientId (handle generate r g clock event).room.players
            = some (s + (3 + (1 / 5) * (event.inputStr.length : ℚ))) ∧
          ∃ q, (handle generate r g clock event).room.poolOld = r.poolOld ++ [q]) ∧
        ((∀ q ∈ r.pool, q.answer ≠ event.inputStr) →
          scoreOf event.clientId (handle generate r g clock event).room.players
            = some (max 0 (s - 1)))) := by
  have hlate : roundF32 (clock 0) > roundF32 (r.tRoundStart_s + r.tRoundLength_s) →
      (handle generate r g clock event).room = r ∧
      (handle generate r g clock event).gen = g ∧
      (handle generate r g clock event).task = none := by
    intro h
    rw [handle_input_late generate r g clock event htype hroom h]
    exact ⟨rfl, rfl, rfl⟩
  refine ⟨hlate, ?_, ?_⟩
  · intro hnow hsum hgt
    apply hlate
    rw [hnow, hsum]
    exact hgt
  · intro hpass hplayer s hs
    have hle : roundF32 (clock 0) ≤ roundF32 (r.tRoundStart_s + r.tRoundLength_s) := by
      rcases hpass with heq | hle
      · rw [heq]
      · exact hle
    rw [handle_input_passed generate r g clock event htype hroom hle]
    refine ⟨fun hmatch => ⟨?_, ?_⟩, fun hmiss => ?_⟩
    · exact playerInput_match_score generate r g clock event hplayer hmatch s hs
    · rcases playerInput_poolOld generate r g clock event with ⟨_, hno⟩ | ⟨hq, _⟩
      · exact absurd ⟨hplayer, hmatch⟩ hno
      · exact hq
    · exact playerInput_miss_score generate r g clock event hplayer hmiss s hs

/-- C9 amended, on an example: the round of `catRoom` started at 10 s and lasts 5 s. The
right answer "cat" submitted at 16 s leaves the room as it is; submitted at 15 s it is
scored, 3.6 for client 7, and an item is retired. -/
theorem late_submission_ignored_witness :
    (handle demoGenerate catRoom 0 (fun _ => 16) catInput).room = catRoom ∧
    scoreOf 7 (handle demoGenerate catRoom 0 (fun _ => 15) catInput).room.players
      = some (18 / 5) ∧
    (∃ q, (handle demoGenerate catRoom 0 (fun _ => 15) catInput).room.poolOld = [] ++ [q]) := by
  have h16 : roundF32 16 = 16 := by
    have h := roundF32_natCast 16 (by norm_num)
    exact_mod_cast h
  have h15 : roundF32 (catRoom.tRoundStart_s + catRoom.tRoundLength_s) = 15 := by
    have h := roundF32_natCast 15 (by norm_num)
    have he : catRoom.tRoundStart_s + catRoom.tRoundLength_s = ((15 : Nat) : ℚ) := by
      norm_num [catRoom]
    rw [he]
    exact_mod_cast h
  have hlate := (late_submission_ignored demoGenerate catRoom 0 (fun _ => 16) catInput rfl
    rfl).1 (by
      show roundF32 16 > roundF32 (catRoom.tRoundStart_s + catRoom.tRoundLength_s)
      rw [h16, h15]
      norm_num)
  have hedge := (late_submission_ignored demoGenerate catRoom 0 (fun _ => 15) catInput rfl
    rfl).2.2 (Or.inl (by norm_num [catRoom])) ⟨_, List.mem_cons_self _ _, rfl⟩ 0 rfl
  have hscored := hedge.1 ⟨catQuery, List.mem_cons_self _ _, rfl⟩
  refine ⟨hlate.1, hscored.1.trans ?_, hscored.2⟩
  norm_num [catInput]

end TypingBattles
